import Mathlib

/-
Verification of the oxmpl sampling-based motion-planning library.

The Rust source is embedded shallowly: f64 values become real numbers,
`&mut` receivers become explicit state passing, fallible calls return
Except, and the planners' RNG draws and wall-clock deadline become an
explicit list of pre-resolved draws (the deadline fires when the list is
exhausted).  Every definition is translated from the corresponding Rust
item, named after it where Lean allows.
-/

noncomputable section

namespace Oxmpl

/-! ## Real model of `f64::rem_euclid`

For `y > 0`, Rust's `x.rem_euclid(y)` is the representative of `x` modulo
`y` in `[0, y)`, i.e. `x - y * ⌊x / y⌋`. -/

def fmod (x y : ℝ) : ℝ := x - y * ⌊x / y⌋

theorem fmod_nonneg {y : ℝ} (hy : 0 < y) (x : ℝ) : 0 ≤ fmod x y := by
  have h : (⌊x / y⌋ : ℝ) ≤ x / y := Int.floor_le _
  have := mul_le_mul_of_nonneg_left h (le_of_lt hy)
  rw [mul_div_cancel₀ _ (ne_of_gt hy)] at this
  simpa [fmod, sub_nonneg] using this

theorem fmod_lt {y : ℝ} (hy : 0 < y) (x : ℝ) : fmod x y < y := by
  have h : x / y < ⌊x / y⌋ + 1 := Int.lt_floor_add_one _
  have := mul_lt_mul_of_pos_left h hy
  rw [mul_div_cancel₀ _ (ne_of_gt hy)] at this
  have h2 : x < y * ⌊x / y⌋ + y := by ring_nf; ring_nf at this; linarith
  simpa [fmod, sub_lt_iff_lt_add] using by linarith

theorem fmod_eq_sub (x y : ℝ) : ∃ k : ℤ, fmod x y = x - y * k :=
  ⟨⌊x / y⌋, rfl⟩

/-- Computation rule: if `y * k ≤ x < y * (k + 1)` with `y > 0` then
`fmod x y = x - y * k`. -/
theorem fmod_eq_of {y : ℝ} (hy : 0 < y) (x : ℝ) (k : ℤ)
    (h1 : y * k ≤ x) (h2 : x < y * (k + 1)) : fmod x y = x - y * k := by
  have hk : ⌊x / y⌋ = k := by
    rw [Int.floor_eq_iff]
    constructor
    · rw [le_div_iff₀ hy]; linarith
    · rw [div_lt_iff₀ hy]; linarith
  rw [fmod, hk]

/-! ## SO(2) state (`base/states/so2_state.rs`) -/

structure SO2State where
  value : ℝ
deriving DecidableEq

/-- Model of `SO2State::normalise(&mut self) -> Self`.  The first component
is the receiver after the call, the second the returned state.  The Rust
body builds and returns a fresh `SO2State` and never writes through
`&mut self`, so the receiver comes back unchanged. -/
def SO2State.normaliseCall (s : SO2State) : SO2State × SO2State :=
  (s, ⟨fmod (s.value + Real.pi) (2 * Real.pi) - Real.pi⟩)

/-! ## SO(2) state space (`base/spaces/so2_state_space.rs`) -/

structure SO2StateSpace where
  bounds : ℝ × ℝ
  longest_valid_segment_fraction : ℝ

def SO2StateSpace.get_maximum_extent (_sp : SO2StateSpace) : ℝ := Real.pi

def SO2StateSpace.get_longest_valid_segment_length (sp : SO2StateSpace) : ℝ :=
  sp.get_maximum_extent * sp.longest_valid_segment_fraction

/-- `SO2StateSpace::distance`: shortest angular difference,
`|((a - b + π) mod 2π) - π|`. -/
def SO2StateSpace.distance (_sp : SO2StateSpace) (state1 state2 : SO2State) : ℝ :=
  |fmod (state1.value - state2.value + Real.pi) (2 * Real.pi) - Real.pi|

/-- `SO2StateSpace::satisfies_bounds`: normalises a clone of the state and
compares the normalised angle against the bounds (no tolerance). -/
def SO2StateSpace.satisfies_bounds (sp : SO2StateSpace) (state : SO2State) : Bool :=
  decide (sp.bounds.1 ≤ (SO2State.normaliseCall state).2.value ∧
    (SO2State.normaliseCall state).2.value ≤ sp.bounds.2)

/-- `SO2StateSpace::enforce_bounds`.  The call `state.normalise()` on the
first line discards the returned state, so the receiver is unchanged when
the early `satisfies_bounds` return fires; otherwise the angle is snapped
to the nearer bound endpoint. -/
def SO2StateSpace.enforce_bounds (sp : SO2StateSpace) (state : SO2State) : SO2State :=
  let state1 := (SO2State.normaliseCall state).1
  if sp.satisfies_bounds state1 then state1
  else
    let dist_to_min := sp.distance ⟨sp.bounds.1⟩ state1
    let dist_to_max := sp.distance ⟨sp.bounds.2⟩ state1
    if dist_to_min < dist_to_max then ⟨sp.bounds.1⟩ else ⟨sp.bounds.2⟩

/-! ## Circle-metric groundwork for the SO(2) distance -/

/-- The function the SO(2) distance applies to the raw angle difference. -/
def angDist (x : ℝ) : ℝ := |fmod (x + Real.pi) (2 * Real.pi) - Real.pi|

theorem so2_distance_eq_angDist (sp : SO2StateSpace) (a b : SO2State) :
    sp.distance a b = angDist (a.value - b.value) := rfl

theorem two_pi_pos : (0 : ℝ) < 2 * Real.pi := by positivity

/-- The representative `fmod (x + π) (2π) - π` differs from `x` by an
integer multiple of `2π`. -/
theorem angDist_rep (x : ℝ) :
    ∃ k : ℤ, fmod (x + Real.pi) (2 * Real.pi) - Real.pi = x - 2 * Real.pi * k := by
  obtain ⟨k, hk⟩ := fmod_eq_sub (x + Real.pi) (2 * Real.pi)
  exact ⟨k, by rw [hk]; ring⟩

theorem angDist_rep_abs (x : ℝ) :
    ∃ k : ℤ, angDist x = |x - 2 * Real.pi * k| := by
  obtain ⟨k, hk⟩ := angDist_rep x
  exact ⟨k, by rw [angDist, hk]⟩

theorem angDist_nonneg (x : ℝ) : 0 ≤ angDist x := abs_nonneg _

theorem angDist_le_pi (x : ℝ) : angDist x ≤ Real.pi := by
  have h0 := fmod_nonneg two_pi_pos (x + Real.pi)
  have h1 := fmod_lt two_pi_pos (x + Real.pi)
  rw [angDist, abs_le]
  constructor <;> linarith

/-- `angDist x` is at most the distance from `x` to any multiple of `2π`. -/
theorem angDist_le (x : ℝ) (k : ℤ) : angDist x ≤ |x - 2 * Real.pi * k| := by
  obtain ⟨j, hj⟩ := angDist_rep x
  rw [angDist, hj]
  rcases eq_or_ne j k with h | h
  · rw [h]
  · have hpi := angDist_le_pi x
    rw [angDist, hj] at hpi
    have hdiff : |(x - 2 * Real.pi * j) - (x - 2 * Real.pi * k)| =
        2 * Real.pi * |(k : ℝ) - j| := by
      rw [show (x - 2 * Real.pi * j) - (x - 2 * Real.pi * k) =
        2 * Real.pi * ((k : ℝ) - j) by ring, abs_mul, abs_of_pos two_pi_pos]
    have hone : (1 : ℝ) ≤ |(k : ℝ) - j| := by
      rw [show ((k : ℝ) - j) = ((k - j : ℤ) : ℝ) by push_cast; ring]
      rw [← Int.cast_abs]
      exact_mod_cast Int.one_le_abs (sub_ne_zero.mpr (Ne.symm h))
    have h2pi : 2 * Real.pi ≤ |(x - 2 * Real.pi * j) - (x - 2 * Real.pi * k)| := by
      rw [hdiff]
      nlinarith [Real.pi_pos]
    have := abs_sub_abs_le_abs_sub (x - 2 * Real.pi * j) (x - 2 * Real.pi * k)
    have habs := abs_sub (x - 2 * Real.pi * j) (x - 2 * Real.pi * k)
    -- |x - 2πk| ≥ |(x-2πj) - (x-2πk)| - |x-2πj| ≥ 2π - π = π ≥ |x-2πj|
    have h3 : |(x - 2 * Real.pi * j) - (x - 2 * Real.pi * k)| ≤
        |x - 2 * Real.pi * j| + |x - 2 * Real.pi * k| := abs_sub _ _
    linarith

theorem angDist_self : angDist 0 = 0 := by
  obtain ⟨k, hk⟩ := angDist_rep_abs 0
  have h := angDist_le 0 0
  have h0 := angDist_nonneg 0
  simp only [Int.cast_zero, mul_zero, sub_zero, abs_zero] at h
  linarith

theorem angDist_neg (x : ℝ) : angDist (-x) = angDist x := by
  have key : ∀ y : ℝ, angDist (-y) ≤ angDist y := by
    intro y
    obtain ⟨k, hk⟩ := angDist_rep_abs y
    calc angDist (-y) ≤ |(-y) - 2 * Real.pi * (-k : ℤ)| := angDist_le _ _
      _ = |y - 2 * Real.pi * k| := by
          push_cast
          rw [show (-y) - 2 * Real.pi * (-(k : ℝ)) = -(y - 2 * Real.pi * k) by ring,
            abs_neg]
      _ = angDist y := hk.symm
  have h1 := key x
  have h2 := key (-x)
  rw [neg_neg] at h2
  linarith

theorem angDist_triangle (x y : ℝ) : angDist (x + y) ≤ angDist x + angDist y := by
  obtain ⟨j, hj⟩ := angDist_rep_abs x
  obtain ⟨k, hk⟩ := angDist_rep_abs y
  calc angDist (x + y) ≤ |(x + y) - 2 * Real.pi * (j + k : ℤ)| := angDist_le _ _
    _ = |(x - 2 * Real.pi * j) + (y - 2 * Real.pi * k)| := by
        push_cast; ring_nf
    _ ≤ |x - 2 * Real.pi * j| + |y - 2 * Real.pi * k| := abs_add _ _
    _ = angDist x + angDist y := by rw [hj, hk]

theorem angDist_int_mul (k : ℤ) : angDist (2 * Real.pi * k) = 0 := by
  have h := angDist_le (2 * Real.pi * k) k
  have h0 := angDist_nonneg (2 * Real.pi * k)
  simp only [sub_self, abs_zero] at h
  linarith

/-! ## Evaluation helpers for the SO(2) space -/

@[simp]
theorem so2_normaliseCall_fst (s : SO2State) : (SO2State.normaliseCall s).1 = s := rfl

theorem so2_norm_val (v : ℝ) :
    (SO2State.normaliseCall ⟨v⟩).2.value = fmod (v + Real.pi) (2 * Real.pi) - Real.pi :=
  rfl

theorem so2_satisfies_iff (sp : SO2StateSpace) (s : SO2State) :
    sp.satisfies_bounds s = true ↔
      (sp.bounds.1 ≤ fmod (s.value + Real.pi) (2 * Real.pi) - Real.pi ∧
        fmod (s.value + Real.pi) (2 * Real.pi) - Real.pi ≤ sp.bounds.2) := by
  simp [SO2StateSpace.satisfies_bounds, SO2State.normaliseCall]

theorem so2_satisfies_false_iff (sp : SO2StateSpace) (s : SO2State) :
    sp.satisfies_bounds s = false ↔
      ¬(sp.bounds.1 ≤ fmod (s.value + Real.pi) (2 * Real.pi) - Real.pi ∧
        fmod (s.value + Real.pi) (2 * Real.pi) - Real.pi ≤ sp.bounds.2) := by
  simp [SO2StateSpace.satisfies_bounds, SO2State.normaliseCall]

end Oxmpl

namespace Oxmpl

/-! ## Claims C6, C7, C10: the SO(2) space -/

/-- Claim C7: the SO(2) distance is `|((a - b + π) mod 2π) - π|`, and it
satisfies the metric axioms: non-negativity, symmetry, `d(a,a) = 0`,
vanishing on pairs denoting the same circle point, and the triangle
inequality (exactly, so in particular up to any ε ≥ 0). -/
theorem C7_so2_distance_metric :
    (∀ (sp : SO2StateSpace) (a b : SO2State),
        sp.distance a b = |fmod (a.value - b.value + Real.pi) (2 * Real.pi) - Real.pi|) ∧
    (∀ (sp : SO2StateSpace) (a b : SO2State), 0 ≤ sp.distance a b) ∧
    (∀ (sp : SO2StateSpace) (a b : SO2State), sp.distance a b = sp.distance b a) ∧
    (∀ (sp : SO2StateSpace) (a : SO2State), sp.distance a a = 0) ∧
    (∀ (sp : SO2StateSpace) (a b : SO2State) (k : ℤ),
        a.value - b.value = 2 * Real.pi * k → sp.distance a b = 0) ∧
    (∀ (sp : SO2StateSpace) (a b c : SO2State),
        sp.distance a c ≤ sp.distance a b + sp.distance b c) := by
  refine ⟨fun _ _ _ => rfl, fun _ a b => abs_nonneg _, ?_, ?_, ?_, ?_⟩
  · intro sp a b
    rw [so2_distance_eq_angDist, so2_distance_eq_angDist,
      show b.value - a.value = -(a.value - b.value) by ring, angDist_neg]
  · intro sp a
    rw [so2_distance_eq_angDist, sub_self, angDist_self]
  · intro sp a b k h
    rw [so2_distance_eq_angDist, h, angDist_int_mul]
  · intro sp a b c
    rw [so2_distance_eq_angDist, so2_distance_eq_angDist, so2_distance_eq_angDist,
      show a.value - c.value = (a.value - b.value) + (b.value - c.value) by ring]
    exact angDist_triangle _ _

/-- Witness for C7: the same-point clause at the concrete pair `(2π, 0)`
with `k = 1`, evaluated to distance `0`. -/
theorem C7_so2_distance_metric_witness :
    SO2StateSpace.distance ⟨(0, Real.pi), 0.05⟩ ⟨2 * Real.pi⟩ ⟨0⟩ = 0 :=
  (C7_so2_distance_metric.2.2.2.2.1) ⟨(0, Real.pi), 0.05⟩ ⟨2 * Real.pi⟩ ⟨0⟩ 1
    (by push_cast; ring)

/-- Claim C6 fails on the code: on the SO(2) space with bounds `(0, π)`
(the constructor's own doc example) and the state with angle `-2.5`,
`enforce_bounds` snaps the angle to the upper bound `π`, but
`satisfies_bounds` normalises `π` to `-π` and reports `false`.  So after
`enforce_bounds` the predicate `satisfies_bounds` does not hold. -/
theorem C6_enforce_bounds_leaves_bounds_unsatisfied :
    SO2StateSpace.satisfies_bounds ⟨(0, Real.pi), 0.05⟩
      (SO2StateSpace.enforce_bounds ⟨(0, Real.pi), 0.05⟩ ⟨-2.5⟩) = false := by
  have hpi1 : (3.141592 : ℝ) < Real.pi := Real.pi_gt_d6
  have hpi2 : Real.pi < 3.141593 := Real.pi_lt_d6
  have hfm1 : fmod ((-2.5 : ℝ) + Real.pi) (2 * Real.pi) = -2.5 + Real.pi := by
    have := fmod_eq_of two_pi_pos ((-2.5 : ℝ) + Real.pi) 0 (by push_cast; linarith)
      (by push_cast; linarith)
    simpa using this
  have henf : SO2StateSpace.enforce_bounds ⟨(0, Real.pi), 0.05⟩ ⟨-2.5⟩ =
      (⟨Real.pi⟩ : SO2State) := by
    have hsat : SO2StateSpace.satisfies_bounds ⟨(0, Real.pi), 0.05⟩ ⟨-2.5⟩ = false := by
      rw [so2_satisfies_false_iff]
      simp only [hfm1]
      intro h
      linarith [h.1]
    have hdmin : SO2StateSpace.distance ⟨(0, Real.pi), 0.05⟩ ⟨(0 : ℝ)⟩ ⟨-2.5⟩ = 2.5 := by
      have hf : fmod ((0 : ℝ) - (-2.5) + Real.pi) (2 * Real.pi) = 2.5 + Real.pi := by
        have := fmod_eq_of two_pi_pos ((0 : ℝ) - (-2.5) + Real.pi) 0
          (by push_cast; linarith) (by push_cast; linarith)
        simpa using this
      rw [SO2StateSpace.distance, hf]
      rw [show (2.5 : ℝ) + Real.pi - Real.pi = 2.5 by ring]
      rw [abs_of_pos (by norm_num)]
    have hdmax : SO2StateSpace.distance ⟨(0, Real.pi), 0.05⟩ ⟨Real.pi⟩ ⟨-2.5⟩ =
        Real.pi - 2.5 := by
      have hf : fmod (Real.pi - (-2.5) + Real.pi) (2 * Real.pi) = 2.5 := by
        have := fmod_eq_of two_pi_pos (Real.pi - (-2.5) + Real.pi) 1
          (by push_cast; linarith) (by push_cast; linarith)
        rw [this]; push_cast; ring
      rw [SO2StateSpace.distance, hf]
      rw [abs_of_neg (by linarith)]
      ring
    rw [SO2StateSpace.enforce_bounds]
    simp only [so2_normaliseCall_fst, hsat, Bool.false_eq_true, if_false]
    simp only [hdmin, hdmax]
    rw [if_neg (by intro h; linarith)]
  rw [henf, so2_satisfies_false_iff]
  have hf2 : fmod (Real.pi + Real.pi) (2 * Real.pi) = 0 := by
    have := fmod_eq_of two_pi_pos (Real.pi + Real.pi) 1 (by push_cast; linarith)
      (by push_cast; linarith)
    rw [this]; push_cast; ring
  simp only [hf2]
  intro h
  linarith [h.1, Real.pi_pos]

/-- Claim C10: `SO2State::normalise` returns a fresh state with angle in
`[-π, π)` and never writes the receiver; hence `enforce_bounds`, which
discards the normalised state, returns its input unchanged whenever the
input's normalised angle already satisfies the bounds — so the stored
angle may remain outside `[-π, π)` after `enforce_bounds`. -/
theorem C10_normalise_leaves_receiver_unchanged :
    (∀ s : SO2State, (SO2State.normaliseCall s).1 = s) ∧
    (∀ s : SO2State, -Real.pi ≤ (SO2State.normaliseCall s).2.value ∧
        (SO2State.normaliseCall s).2.value < Real.pi) ∧
    (∀ (sp : SO2StateSpace) (s : SO2State),
        sp.satisfies_bounds s = true → sp.enforce_bounds s = s) ∧
    (∃ (sp : SO2StateSpace) (s : SO2State),
        sp.enforce_bounds s = s ∧ ¬(-Real.pi ≤ s.value ∧ s.value < Real.pi)) := by
  have hpi := Real.pi_pos
  refine ⟨fun s => rfl, ?_, ?_, ?_⟩
  · intro s
    have h0 := fmod_nonneg two_pi_pos (s.value + Real.pi)
    have h1 := fmod_lt two_pi_pos (s.value + Real.pi)
    constructor <;> [skip; skip] <;>
      simp only [SO2State.normaliseCall] <;> linarith
  · intro sp s h
    rw [SO2StateSpace.enforce_bounds]
    simp only [so2_normaliseCall_fst, h, if_true]
  · refine ⟨⟨(-Real.pi, Real.pi), 0.05⟩, ⟨2 * Real.pi⟩, ?_, ?_⟩
    · have hf : fmod (2 * Real.pi + Real.pi) (2 * Real.pi) = Real.pi := by
        have := fmod_eq_of two_pi_pos (2 * Real.pi + Real.pi) 1
          (by push_cast; linarith) (by push_cast; linarith)
        rw [this]; push_cast; ring
      have hsat : SO2StateSpace.satisfies_bounds ⟨(-Real.pi, Real.pi), 0.05⟩
          ⟨2 * Real.pi⟩ = true := by
        rw [so2_satisfies_iff]
        simp only [hf]
        constructor <;> simp <;> linarith
      rw [SO2StateSpace.enforce_bounds]
      simp only [so2_normaliseCall_fst, hsat, if_true]
    · show ¬(-Real.pi ≤ 2 * Real.pi ∧ 2 * Real.pi < Real.pi)
      intro h
      linarith [h.2]

/-- Witness for C10: the conditional clause applied at the full-circle
space and the state with angle 0, whose bounds are satisfied. -/
theorem C10_normalise_leaves_receiver_unchanged_witness :
    SO2StateSpace.enforce_bounds ⟨(-Real.pi, Real.pi), 0.05⟩ ⟨0⟩ = ⟨0⟩ := by
  have hpi := Real.pi_pos
  refine C10_normalise_leaves_receiver_unchanged.2.2.1 ⟨(-Real.pi, Real.pi), 0.05⟩ ⟨0⟩ ?_
  rw [so2_satisfies_iff]
  have hf : fmod ((0 : ℝ) + Real.pi) (2 * Real.pi) = Real.pi := by
    have := fmod_eq_of two_pi_pos ((0 : ℝ) + Real.pi) 0 (by push_cast; linarith)
      (by push_cast; linarith)
    rw [this]; push_cast; ring
  simp only [hf]
  constructor <;> linarith

end Oxmpl

namespace Oxmpl

/-! ## R^n state and space (`base/states/real_vector_state.rs`,
`base/spaces/real_vector_state_space.rs`)

An `f64` bound may be `±∞` (unbounded dimensions), so bounds are modelled
as `EReal` pairs; state components are finite reals. -/

structure RealVectorState where
  values : List ℝ

/-- Whether an `f64` bound value is finite (`f64::is_finite`). -/
def isFiniteE (x : EReal) : Bool := decide (x ≠ ⊥ ∧ x ≠ ⊤)

structure RealVectorStateSpace where
  dimension : ℕ
  bounds : List (EReal × EReal)
  longest_valid_segment_fraction : ℝ

/-- `RealVectorStateSpace::get_maximum_extent`: `1` if any bound is not
finite, otherwise the bounding-box diagonal. -/
def RealVectorStateSpace.get_maximum_extent (sp : RealVectorStateSpace) : ℝ :=
  if sp.bounds.any (fun b => !(isFiniteE b.1 && isFiniteE b.2)) then 1
  else Real.sqrt ((sp.bounds.map (fun b => (b.2.toReal - b.1.toReal) ^ 2)).sum)

def RealVectorStateSpace.get_longest_valid_segment_length
    (sp : RealVectorStateSpace) : ℝ :=
  sp.get_maximum_extent * sp.longest_valid_segment_fraction

/-- `RealVectorStateSpace::distance`: the L2 norm of the componentwise
difference (the source asserts equal dimensions and zips the components). -/
def RealVectorStateSpace.distance (_sp : RealVectorStateSpace)
    (state1 state2 : RealVectorState) : ℝ :=
  Real.sqrt (((state1.values.zip state2.values).map (fun p => (p.1 - p.2) ^ 2)).sum)

/-- `RealVectorStateSpace::interpolate`: componentwise
`from + (to - from) * t` (the source asserts equal dimensions and writes
every component of the out-state). -/
def RealVectorStateSpace.interpolate (_sp : RealVectorStateSpace)
    (a b : RealVectorState) (t : ℝ) : RealVectorState :=
  ⟨(a.values.zip b.values).map (fun p => p.1 + (p.2 - p.1) * t)⟩

/-- `f64::EPSILON`. -/
def f64Eps : ℝ := 2 ^ (-52 : ℤ)

/-- `RealVectorStateSpace::satisfies_bounds`: every component within its
bounds up to `f64::EPSILON`.  Out-of-range indexing (a dimension mismatch)
panics in the source; the `getD` defaults here are never reached under the
dimension hypotheses carried by the theorems. -/
def RealVectorStateSpace.satisfies_bounds (sp : RealVectorStateSpace)
    (state : RealVectorState) : Bool :=
  (List.range sp.dimension).all (fun i =>
    let v := state.values.getD i 0
    let b := sp.bounds.getD i (⊥, ⊤)
    !(decide (((v - f64Eps : ℝ) : EReal) > b.2) ||
      decide (((v + f64Eps : ℝ) : EReal) < b.1)))

/-- A state lies (exactly) within the space's bounds, componentwise. -/
def InBounds (sp : RealVectorStateSpace) (s : RealVectorState) : Prop :=
  List.Forall₂ (fun (v : ℝ) (b : EReal × EReal) =>
    b.1 ≤ (v : EReal) ∧ (v : EReal) ≤ b.2) s.values sp.bounds

/-- All bounds of the space are finite. -/
def AllFinite (sp : RealVectorStateSpace) : Prop :=
  ∀ b ∈ sp.bounds, b.1 ≠ ⊥ ∧ b.1 ≠ ⊤ ∧ b.2 ≠ ⊥ ∧ b.2 ≠ ⊤

/-! ## SO(3) state and space (`base/states/so3_state.rs`,
`base/spaces/so3_state_space.rs`) -/

structure SO3State where
  x : ℝ
  y : ℝ
  z : ℝ
  w : ℝ

structure SO3StateSpace where
  bounds : SO3State × ℝ
  longest_valid_segment_fraction : ℝ

def SO3StateSpace.get_maximum_extent (_sp : SO3StateSpace) : ℝ := 0.5 * Real.pi

/-- `SO3StateSpace::distance`: `arccos` of the absolute quaternion dot
product, snapped to `0` when the dot product is within `1e-9` of `1`. -/
def SO3StateSpace.distance (_sp : SO3StateSpace) (state1 state2 : SO3State) : ℝ :=
  let abs_dot := |state1.x * state2.x + state1.y * state2.y + state1.z * state2.z +
    state1.w * state2.w|
  if abs_dot > 1 - 1e-9 then 0 else Real.arccos abs_dot

/-! ## Claim C8: maximum extent as a distance bound -/

theorem sum_sq_pairs_le :
    ∀ (bs : List (EReal × EReal)) (xs ys : List ℝ),
      List.Forall₂ (fun (v : ℝ) (b : EReal × EReal) =>
        b.1 ≤ (v : EReal) ∧ (v : EReal) ≤ b.2) xs bs →
      List.Forall₂ (fun (v : ℝ) (b : EReal × EReal) =>
        b.1 ≤ (v : EReal) ∧ (v : EReal) ≤ b.2) ys bs →
      (∀ b ∈ bs, b.1 ≠ ⊥ ∧ b.1 ≠ ⊤ ∧ b.2 ≠ ⊥ ∧ b.2 ≠ ⊤) →
      ((xs.zip ys).map (fun p => (p.1 - p.2) ^ 2)).sum ≤
        (bs.map (fun b => (b.2.toReal - b.1.toReal) ^ 2)).sum := by
  intro bs
  induction bs with
  | nil =>
    intro xs ys hx hy _
    cases hx
    cases hy
    simp
  | cons b bs ih =>
    intro xs ys hx hy hfin
    cases hx with
    | cons hxb hxs =>
      cases hy with
      | cons hyb hys =>
        rename_i x xs' y ys'
        obtain ⟨h1b, h1t, h2b, h2t⟩ := hfin b (List.mem_cons_self _ _)
        have hx1 : b.1.toReal ≤ x := by
          have h := EReal.toReal_le_toReal hxb.1 h1b (EReal.coe_ne_top x)
          rwa [EReal.toReal_coe] at h
        have hx2 : x ≤ b.2.toReal := by
          have h := EReal.toReal_le_toReal hxb.2 (EReal.coe_ne_bot x) h2t
          rwa [EReal.toReal_coe] at h
        have hy1 : b.1.toReal ≤ y := by
          have h := EReal.toReal_le_toReal hyb.1 h1b (EReal.coe_ne_top y)
          rwa [EReal.toReal_coe] at h
        have hy2 : y ≤ b.2.toReal := by
          have h := EReal.toReal_le_toReal hyb.2 (EReal.coe_ne_bot y) h2t
          rwa [EReal.toReal_coe] at h
        have hhead : (x - y) ^ 2 ≤ (b.2.toReal - b.1.toReal) ^ 2 :=
          sq_le_sq' (by linarith) (by linarith)
        have htail := ih xs' ys' hxs hys (fun c hc => hfin c (List.mem_cons_of_mem _ hc))
        simp only [List.zip_cons_cons, List.map_cons, List.sum_cons]
        exact add_le_add hhead htail

/-- Claim C8 fails on the code as stated: in a one-dimensional unbounded
R^n space, `get_maximum_extent` is `1`, yet the in-bounds states `[0]` and
`[2]` are at distance `2 > 1`. -/
theorem C8_max_extent_counterexample :
    RealVectorStateSpace.get_maximum_extent ⟨1, [(⊥, ⊤)], 0.05⟩ = 1 ∧
    RealVectorStateSpace.satisfies_bounds ⟨1, [(⊥, ⊤)], 0.05⟩ ⟨[0]⟩ = true ∧
    RealVectorStateSpace.satisfies_bounds ⟨1, [(⊥, ⊤)], 0.05⟩ ⟨[2]⟩ = true ∧
    InBounds ⟨1, [(⊥, ⊤)], 0.05⟩ ⟨[0]⟩ ∧ InBounds ⟨1, [(⊥, ⊤)], 0.05⟩ ⟨[2]⟩ ∧
    RealVectorStateSpace.distance ⟨1, [(⊥, ⊤)], 0.05⟩ ⟨[0]⟩ ⟨[2]⟩ = 2 ∧
    ¬(RealVectorStateSpace.distance ⟨1, [(⊥, ⊤)], 0.05⟩ ⟨[0]⟩ ⟨[2]⟩ ≤
      RealVectorStateSpace.get_maximum_extent ⟨1, [(⊥, ⊤)], 0.05⟩) := by
  have hext : RealVectorStateSpace.get_maximum_extent ⟨1, [(⊥, ⊤)], 0.05⟩ = 1 := by
    simp [RealVectorStateSpace.get_maximum_extent, isFiniteE]
  have hdist : RealVectorStateSpace.distance ⟨1, [(⊥, ⊤)], 0.05⟩ ⟨[0]⟩ ⟨[2]⟩ = 2 := by
    simp only [RealVectorStateSpace.distance, List.zip_cons_cons, List.zip_nil_right,
      List.map_cons, List.map_nil, List.sum_cons, List.sum_nil]
    rw [show ((0 : ℝ) - 2) ^ 2 + 0 = 2 ^ 2 by norm_num]
    exact Real.sqrt_sq (by norm_num)
  refine ⟨hext, ?_, ?_, ?_, ?_, hdist, ?_⟩
  · simp [RealVectorStateSpace.satisfies_bounds]
  · simp [RealVectorStateSpace.satisfies_bounds]
  · exact List.Forall₂.cons (by simp) List.Forall₂.nil
  · exact List.Forall₂.cons (by simp) List.Forall₂.nil
  · rw [hdist, hext]
    norm_num

/-- Claim C8, amended: `get_maximum_extent` bounds every distance for
SO(2) (value `π`) and SO(3) (value `π/2`); for an R^n space whose bounds
are all finite it is the bounding-box diagonal and bounds the distance
between any two configurations lying within the bounds; for an R^n space
with an infinite dimension it is the constant `1`, which is *not* an upper
bound on in-bounds distances. -/
theorem C8_max_extent_amended :
    (∀ (sp : SO2StateSpace) (a b : SO2State),
        sp.get_maximum_extent = Real.pi ∧ sp.distance a b ≤ sp.get_maximum_extent) ∧
    (∀ (sp : SO3StateSpace) (a b : SO3State),
        sp.get_maximum_extent = 0.5 * Real.pi ∧ sp.distance a b ≤ sp.get_maximum_extent) ∧
    (∀ sp : RealVectorStateSpace, AllFinite sp →
      sp.get_maximum_extent =
        Real.sqrt ((sp.bounds.map (fun b => (b.2.toReal - b.1.toReal) ^ 2)).sum) ∧
      ∀ a b : RealVectorState, InBounds sp a → InBounds sp b →
        sp.distance a b ≤ sp.get_maximum_extent) ∧
    (∀ sp : RealVectorStateSpace,
      (∃ b ∈ sp.bounds, isFiniteE b.1 = false ∨ isFiniteE b.2 = false) →
      sp.get_maximum_extent = 1) := by
  refine ⟨?_, ?_, ?_, ?_⟩
  · exact fun sp a b => ⟨rfl, angDist_le_pi _⟩
  · intro sp a b
    refine ⟨rfl, ?_⟩
    rw [SO3StateSpace.distance, SO3StateSpace.get_maximum_extent]
    split
    · positivity
    · rw [Real.arccos]
      have h := Real.arcsin_nonneg.mpr (abs_nonneg
        (a.x * b.x + a.y * b.y + a.z * b.z + a.w * b.w))
      linarith
  · intro sp hfin
    have hany : sp.bounds.any (fun b => !(isFiniteE b.1 && isFiniteE b.2)) = false := by
      rw [List.any_eq_false]
      intro b hb
      obtain ⟨h1b, h1t, h2b, h2t⟩ := hfin b hb
      simp [isFiniteE, h1b, h1t, h2b, h2t]
    have hext : sp.get_maximum_extent =
        Real.sqrt ((sp.bounds.map (fun b => (b.2.toReal - b.1.toReal) ^ 2)).sum) := by
      rw [RealVectorStateSpace.get_maximum_extent, hany]
      simp
    refine ⟨hext, ?_⟩
    intro a b ha hb
    rw [RealVectorStateSpace.distance, hext]
    exact Real.sqrt_le_sqrt (sum_sq_pairs_le sp.bounds a.values b.values ha hb hfin)
  · intro sp ⟨b, hb, hbad⟩
    have hany : sp.bounds.any (fun b => !(isFiniteE b.1 && isFiniteE b.2)) = true := by
      rw [List.any_eq_true]
      refine ⟨b, hb, ?_⟩
      rcases hbad with h | h <;> simp [h]
    rw [RealVectorStateSpace.get_maximum_extent, hany]
    simp

/-- Witness for the amended C8: the finite-bounds clause applied to the
one-dimensional space with bounds `(0, 10)` and the in-bounds states `[1]`
and `[9]`. -/
theorem C8_max_extent_amended_witness :
    RealVectorStateSpace.distance ⟨1, [(((0 : ℝ) : EReal), ((10 : ℝ) : EReal))], 0.05⟩
      ⟨[1]⟩ ⟨[9]⟩ ≤
    RealVectorStateSpace.get_maximum_extent
      ⟨1, [(((0 : ℝ) : EReal), ((10 : ℝ) : EReal))], 0.05⟩ := by
  have hfin : AllFinite ⟨1, [(((0 : ℝ) : EReal), ((10 : ℝ) : EReal))], 0.05⟩ := by
    intro b hb
    simp only [List.mem_singleton] at hb
    subst hb
    refine ⟨?_, ?_, ?_, ?_⟩ <;> simp
  refine (C8_max_extent_amended.2.2.1
    ⟨1, [(((0 : ℝ) : EReal), ((10 : ℝ) : EReal))], 0.05⟩ hfin).2 ⟨[1]⟩ ⟨[9]⟩ ?_ ?_
  · refine List.Forall₂.cons ⟨?_, ?_⟩ List.Forall₂.nil <;>
      rw [EReal.coe_le_coe_iff] <;> norm_num
  · refine List.Forall₂.cons ⟨?_, ?_⟩ List.Forall₂.nil <;>
      rw [EReal.coe_le_coe_iff] <;> norm_num

/-! ## The `StateSpace` trait (`base/space.rs`) as planners consume it

A planner is generic over a space providing distance, interpolation and
the longest-valid-segment-length hint; `interpolate`'s out-parameter is
fully overwritten by every implementation, so it becomes a return value. -/

structure StateSpace (S : Type) where
  distance : S → S → ℝ
  interpolate : S → S → ℝ → S
  get_longest_valid_segment_length : ℝ

def RealVectorStateSpace.toStateSpace (sp : RealVectorStateSpace) :
    StateSpace RealVectorState :=
  ⟨sp.distance, sp.interpolate, sp.get_longest_valid_segment_length⟩

/-! ## The four planners' motion checks

Each planner duplicates the same discretised straight-line sweep, dividing
by `space.get_longest_valid_segment_length() * 0.1`: RRT
(`planners/rrt.rs` lines 96-97 — the module the crate compiles; the stray
file `planners/rrt/rrt.rs` is declared by no `mod` item and is dead code),
RRT-Connect (`rrt_connect.rs` line 174), RRT* (`rrt_star.rs` line 85) and
PRM (`prm.rs` line 168). -/

/-- `RRT::check_motion` (`planners/rrt.rs` lines 90-116; the configured
planner: problem definition and validity checker present, so the `None`
early-false branch is not taken). -/
def RRT.check_motion {S : Type} (sp : StateSpace S) (vc : S → Bool)
    (a b : S) : Bool :=
  let dist := sp.distance a b
  let num_steps : ℕ :=
    (⌈dist / (sp.get_longest_valid_segment_length * 0.1)⌉).toNat
  if num_steps ≤ 1 then vc b
  else (List.range' 1 num_steps).all
    (fun i => vc (sp.interpolate a b ((i : ℝ) / (num_steps : ℝ))))

/-- `RRTConnect::check_motion`. -/
def RRTConnect.check_motion {S : Type} (sp : StateSpace S) (vc : S → Bool)
    (a b : S) : Bool :=
  let dist := sp.distance a b
  let num_steps : ℕ := (⌈dist / (sp.get_longest_valid_segment_length * 0.1)⌉).toNat
  if num_steps ≤ 1 then vc b
  else (List.range' 1 num_steps).all
    (fun i => vc (sp.interpolate a b ((i : ℝ) / (num_steps : ℝ))))

/-- `RRTStar::check_motion`. -/
def RRTStar.check_motion {S : Type} (sp : StateSpace S) (vc : S → Bool)
    (a b : S) : Bool :=
  let dist := sp.distance a b
  let num_steps : ℕ := (⌈dist / (sp.get_longest_valid_segment_length * 0.1)⌉).toNat
  if num_steps ≤ 1 then vc b
  else (List.range' 1 num_steps).all
    (fun i => vc (sp.interpolate a b ((i : ℝ) / (num_steps : ℝ))))

/-- `PRM::check_motion`. -/
def PRM.check_motion {S : Type} (sp : StateSpace S) (vc : S → Bool)
    (a b : S) : Bool :=
  let dist := sp.distance a b
  let num_steps : ℕ := (⌈dist / (sp.get_longest_valid_segment_length * 0.1)⌉).toNat
  if num_steps ≤ 1 then vc b
  else (List.range' 1 num_steps).all
    (fun i => vc (sp.interpolate a b ((i : ℝ) / (num_steps : ℝ))))

/-- Modelled from the claim's words (spec §4.2): the motion check with
`N = ⌈ d / (L × 0.1) ⌉` where `L` is the *space's* longest-valid-segment
length; if `N ≤ 1` return `is_valid(b)`, else check the `N` interpolated
samples at `t = i/N`. -/
def check_motion_spec {S : Type} (sp : StateSpace S) (vc : S → Bool)
    (a b : S) : Bool :=
  let dist := sp.distance a b
  let num_steps : ℕ :=
    (⌈dist / (sp.get_longest_valid_segment_length * 0.1)⌉).toNat
  if num_steps ≤ 1 then vc b
  else (List.range' 1 num_steps).all
    (fun i => vc (sp.interpolate a b ((i : ℝ) / (num_steps : ℝ))))

/-! ## Claim C1: the motion-check divisor -/

/-- Claim C1: every planner's `check_motion` computes exactly the sweep
the claim describes — `N = ⌈d / (L × 0.1)⌉` with `L` the space's
longest-valid-segment length, `is_valid(b)` when `N ≤ 1`, otherwise the
`N` interpolated samples at `t = i/N`, rejected at the first invalid one —
with the same divisor for RRT, RRT-Connect, RRT* and PRM alike. -/
theorem C1_check_motion_divisor :
    ∀ (S : Type) (sp : StateSpace S) (vc : S → Bool) (a b : S),
      RRT.check_motion sp vc a b = check_motion_spec sp vc a b ∧
      RRTConnect.check_motion sp vc a b = check_motion_spec sp vc a b ∧
      RRTStar.check_motion sp vc a b = check_motion_spec sp vc a b ∧
      PRM.check_motion sp vc a b = check_motion_spec sp vc a b :=
  fun _ _ _ _ _ => ⟨rfl, rfl, rfl, rfl⟩

/-! ## Errors (`base/error.rs`) and planner outcomes -/

inductive StateSamplingError where
  | unboundedDimension (dimension_index : ℕ)
  | zeroVolume
  | goalRegionUnsatisfiable
  | goalSamplingTimeout (attempts : ℕ)
deriving DecidableEq

inductive PlanningError where
  | timeout
  | noSolutionFound
  | plannerUninitialised
  | invalidStartState
  | unsampledStateSpace
deriving DecidableEq

/-- Outcome of a planner's `solve`: a path, a `PlanningError`, or a panic
raised by an `unwrap()` on a failed sampling `Result`. -/
inductive SolveResult (S : Type) where
  | ok (path : List S)
  | err (e : PlanningError)
  | panicked (e : StateSamplingError)

/-- One main-loop RNG draw: the goal-bias coin, and the result of the
sampler that coin selects (`sample_goal` on `true`, `sample_uniform` on
`false`).  The planners treat both results identically. -/
def Draw (S : Type) : Type := Bool × Except StateSamplingError S

/-! ## The linear nearest-neighbour scan

RRT, RRT* and RRT-Connect all read `tree[0]`'s distance and then scan the
remaining nodes with a strict `<`, so the lowest index wins ties. -/

def nearest_scan {α : Type} (dist : α → ℝ) (tree : List α) : ℕ × ℝ :=
  match tree with
  | [] => (0, 0)  -- unreachable: the source reads tree[0] (panic on empty)
  | t0 :: rest =>
    rest.enum.foldl
      (fun best p => if dist p.2 < best.2 then (p.1 + 1, dist p.2) else best)
      (0, dist t0)

theorem nearest_scan_foldl_le {α : Type} (dist : α → ℝ) :
    ∀ (l : List (ℕ × α)) (init : ℕ × ℝ) (m : ℕ),
      init.1 ≤ m → (∀ p ∈ l, p.1 + 1 ≤ m) →
      (l.foldl
        (fun best p => if dist p.2 < best.2 then (p.1 + 1, dist p.2) else best)
        init).1 ≤ m := by
  intro l
  induction l with
  | nil => intro init m h _; exact h
  | cons p t ih =>
    intro init m h hall
    simp only [List.foldl_cons]
    by_cases hc : dist p.2 < init.2
    · rw [if_pos hc]
      exact ih _ m (hall p (List.mem_cons_self _ _)) (fun q hq => hall q (List.mem_cons_of_mem _ hq))
    · rw [if_neg hc]
      exact ih _ m h (fun q hq => hall q (List.mem_cons_of_mem _ hq))

theorem nearest_scan_lt {α : Type} (dist : α → ℝ) (t0 : α) (rest : List α) :
    (nearest_scan dist (t0 :: rest)).1 < (t0 :: rest).length := by
  have h := nearest_scan_foldl_le dist rest.enum (0, dist t0) rest.length
    (Nat.zero_le _) (by
      intro p hp
      have := List.fst_lt_of_mem_enum hp
      omega)
  simp only [nearest_scan, List.length_cons]
  omega

/-! ## Walking parent indices to the tree root

The reconstruction loops (`while let Some(index) = current_index`) walk
parent indices; the walk is modelled with fuel `tree.length`, which the
tree invariants below show is enough to reach the root. -/

def walk_states {α S : Type} (st : α → S) (pr : α → Option ℕ)
    (tree : List α) : ℕ → ℕ → List S
  | 0, _ => []
  | fuel + 1, idx =>
    match tree.get? idx with
    | none => []  -- unreachable under the invariants (the source would panic)
    | some nd =>
      st nd :: (match pr nd with
        | none => []
        | some p => walk_states st pr tree fuel p)

/-- A planner tree rooted at `root`: node 0 is `⟨root⟩` with no parent,
no other node is parentless, and parent indices strictly decrease.  This
is the shape RRT and RRT-Connect maintain (nodes are appended with an
existing node as parent, never re-parented). -/
def TreeInv {α S : Type} (st : α → S) (pr : α → Option ℕ)
    (root : S) (tree : List α) : Prop :=
  (∃ nd0, tree.get? 0 = some nd0 ∧ st nd0 = root ∧ pr nd0 = none) ∧
  (∀ i nd, tree.get? i = some nd →
    (pr nd = none → i = 0) ∧ (∀ p, pr nd = some p → p < i))

theorem getLast?_cons_of_ne_nil {α : Type} (a : α) {l : List α} (h : l ≠ []) :
    (a :: l).getLast? = l.getLast? := by
  cases l with
  | nil => exact absurd rfl h
  | cons b t => exact List.getLast?_cons_cons

theorem walk_states_eq_none {α S : Type} (st : α → S) (pr : α → Option ℕ)
    (tree : List α) (fuel idx : ℕ) (nd : α) (hnd : tree.get? idx = some nd)
    (hp : pr nd = none) :
    walk_states st pr tree (fuel + 1) idx = [st nd] := by
  rw [walk_states, hnd]
  show st nd :: (match pr nd with
    | none => []
    | some p => walk_states st pr tree fuel p) = [st nd]
  rw [hp]

theorem walk_states_eq_some {α S : Type} (st : α → S) (pr : α → Option ℕ)
    (tree : List α) (fuel idx p : ℕ) (nd : α) (hnd : tree.get? idx = some nd)
    (hp : pr nd = some p) :
    walk_states st pr tree (fuel + 1) idx = st nd :: walk_states st pr tree fuel p := by
  rw [walk_states, hnd]
  show st nd :: (match pr nd with
    | none => []
    | some q => walk_states st pr tree fuel q) = _
  rw [hp]

/-- Under the invariant, the walk from a valid index is non-empty, starts
at that node's state and ends at the root state. -/
theorem walk_states_spec {α S : Type} (st : α → S) (pr : α → Option ℕ)
    (root : S) (tree : List α) (hinv : TreeInv st pr root tree) :
    ∀ idx, ∀ fuel, idx < tree.length → idx < fuel →
      ∀ nd, tree.get? idx = some nd →
      walk_states st pr tree fuel idx ≠ [] ∧
      (walk_states st pr tree fuel idx).head? = some (st nd) ∧
      (walk_states st pr tree fuel idx).getLast? = some root := by
  intro idx
  induction idx using Nat.strong_induction_on with
  | _ idx ih =>
    intro fuel hlen hfuel nd hnd
    match fuel with
    | 0 => omega
    | fuel + 1 =>
      match hp : pr nd with
      | none =>
        have h0 : idx = 0 := ((hinv.2 idx nd hnd).1) hp
        rw [walk_states_eq_none st pr tree fuel idx nd hnd hp]
        subst h0
        obtain ⟨nd0, hnd0, hst0, _⟩ := hinv.1
        rw [hnd0] at hnd
        cases hnd
        simp [hst0]
      | some p =>
        have hplt : p < idx := (hinv.2 idx nd hnd).2 p hp
        have hpl : p < tree.length := lt_trans hplt hlen
        obtain ⟨ndp, hndp⟩ : ∃ ndp, tree.get? p = some ndp := by
          rw [List.get?_eq_get hpl]
          exact ⟨_, rfl⟩
        have hrec := ih p hplt fuel (by omega) (by omega) ndp hndp
        rw [walk_states_eq_some st pr tree fuel idx p nd hnd hp]
        refine ⟨by simp, by simp, ?_⟩
        rw [getLast?_cons_of_ne_nil _ hrec.1]
        exact hrec.2.2

theorem lt_length_of_get?_eq_some {α : Type} {l : List α} {i : ℕ} {a : α}
    (h : l.get? i = some a) : i < l.length := by
  by_contra hle
  push_neg at hle
  rw [List.get?_eq_none.mpr hle] at h
  cases h

/-- Appending a node whose parent is an existing index preserves the tree
invariant. -/
theorem TreeInv_append {α S : Type} (st : α → S) (pr : α → Option ℕ) (root : S)
    (tree : List α) (hinv : TreeInv st pr root tree) (x : α) (idx : ℕ)
    (hpr : pr x = some idx) (hidx : idx < tree.length) :
    TreeInv st pr root (tree ++ [x]) := by
  obtain ⟨nd0, hnd0, hst0, hpr0⟩ := hinv.1
  have hlen0 : 0 < tree.length := lt_length_of_get?_eq_some hnd0
  constructor
  · exact ⟨nd0, by rw [List.get?_append hlen0]; exact hnd0, hst0, hpr0⟩
  · intro i nd hnd
    by_cases hi : i < tree.length
    · rw [List.get?_append hi] at hnd
      exact hinv.2 i nd hnd
    · have hil : i < (tree ++ [x]).length := lt_length_of_get?_eq_some hnd
      have hieq : i = tree.length := by
        simp only [List.length_append, List.length_singleton] at hil
        omega
      subst hieq
      rw [List.get?_concat_length] at hnd
      cases hnd
      constructor
      · intro hnone
        rw [hpr] at hnone
        cases hnone
      · intro p hp
        rw [hpr] at hp
        cases hp
        omega

/-! ## RRT (`geometric/planners/rrt.rs`) -/

structure RRT.Node (S : Type) where
  state : S
  parent_index : Option ℕ

/-- `RRT::solve`, with the RNG and deadline resolved into `draws`: each
iteration consumes one draw (goal-bias coin plus the chosen sampler's
result, which the source `unwrap()`s); an empty draw list is the deadline
check firing, returning `Timeout`. -/
def RRT.solve_loop {S : Type} (sp : StateSpace S) (vc : S → Bool) (goal : S → Bool)
    (max_distance : ℝ) :
    List (Draw S) → List (RRT.Node S) → SolveResult S
  | [], _ => .err .timeout
  | (_, .error e) :: _, _ => .panicked e
  | (_, .ok q_rand) :: draws, tree =>
    match tree with
    | [] => .err .plannerUninitialised  -- unreachable: setup seeds the tree
    | t0 :: rest =>
      let scan := nearest_scan (fun nd => sp.distance nd.state q_rand) (t0 :: rest)
      let q_near := ((t0 :: rest).getD scan.1 t0).state
      let q_new := if scan.2 > max_distance
        then sp.interpolate q_near q_rand (max_distance / scan.2)
        else q_rand
      if RRT.check_motion sp vc q_near q_new then
        let new_tree := (t0 :: rest) ++ [⟨q_new, some scan.1⟩]
        if goal q_new then
          .ok ((walk_states RRT.Node.state RRT.Node.parent_index new_tree
            new_tree.length (new_tree.length - 1)).reverse)
        else RRT.solve_loop sp vc goal max_distance draws new_tree
      else RRT.solve_loop sp vc goal max_distance draws (t0 :: rest)

/-- `RRT::solve` after `RRT::setup`, whose tree is the single start node. -/
def RRT.solve {S : Type} (sp : StateSpace S) (vc : S → Bool) (goal : S → Bool)
    (max_distance : ℝ) (start : S) (draws : List (Draw S)) : SolveResult S :=
  RRT.solve_loop sp vc goal max_distance draws [⟨start, none⟩]

theorem RRT.solve_loop_ok {S : Type} (sp : StateSpace S) (vc : S → Bool)
    (goal : S → Bool) (max_distance : ℝ) :
    ∀ (draws : List (Draw S)) (tree : List (RRT.Node S)) (root : S),
      TreeInv RRT.Node.state RRT.Node.parent_index root tree →
      ∀ path, RRT.solve_loop sp vc goal max_distance draws tree = .ok path →
        path ≠ [] ∧ path.head? = some root ∧
        ∃ g, path.getLast? = some g ∧ goal g = true := by
  intro draws
  induction draws with
  | nil =>
    intro tree root _ path h
    simp [RRT.solve_loop] at h
  | cons d draws ih =>
    intro tree root hinv path h
    match d with
    | (b, .error e) => simp [RRT.solve_loop] at h
    | (b, .ok q_rand) =>
      match tree with
      | [] =>
        obtain ⟨nd0, hnd0, _, _⟩ := hinv.1
        simp at hnd0
      | t0 :: rest =>
        simp only [RRT.solve_loop] at h
        set scan := nearest_scan (fun nd => sp.distance nd.state q_rand) (t0 :: rest)
          with hscan
        set q_near := ((t0 :: rest).getD scan.1 t0).state with hqnear
        set q_new := if scan.2 > max_distance
          then sp.interpolate q_near q_rand (max_distance / scan.2)
          else q_rand with hqnew
        by_cases hcm : RRT.check_motion sp vc q_near q_new = true
        · rw [if_pos hcm] at h
          have hscanlt := nearest_scan_lt
            (fun nd : RRT.Node S => sp.distance nd.state q_rand) t0 rest
          have hinv2 : TreeInv RRT.Node.state RRT.Node.parent_index root
              ((t0 :: rest) ++ [⟨q_new, some scan.1⟩]) :=
            TreeInv_append _ _ _ _ hinv _ scan.1 rfl hscanlt
          by_cases hg : goal q_new = true
          · rw [if_pos hg] at h
            set new_tree := (t0 :: rest) ++ [(⟨q_new, some scan.1⟩ : RRT.Node S)]
              with hnt
            have hlen : new_tree.length - 1 < new_tree.length := by
              simp [hnt]
            have hget : new_tree.get? (new_tree.length - 1) =
                some ⟨q_new, some scan.1⟩ := by
              have : new_tree.length - 1 = (t0 :: rest).length := by
                simp [hnt]
              rw [this, hnt, List.get?_concat_length]
            have hwalk := walk_states_spec RRT.Node.state RRT.Node.parent_index
              root new_tree hinv2 (new_tree.length - 1) new_tree.length hlen
              (by omega) _ hget
            cases h
            refine ⟨by simp [hwalk.1], ?_, ⟨q_new, ?_, hg⟩⟩
            · rw [List.head?_reverse]
              exact hwalk.2.2
            · rw [List.getLast?_reverse]
              exact hwalk.2.1
          · rw [if_neg hg] at h
            exact ih _ root hinv2 path h
        · rw [if_neg hcm] at h
          exact ih _ root hinv path h

theorem head?_append_of_ne_nil {α : Type} (A B : List α) (h : A ≠ []) :
    (A ++ B).head? = A.head? := by
  cases A with
  | nil => exact absurd rfl h
  | cons a t => simp

theorem getLast?_append_of_ne_nil {α : Type} (A : List α) {B : List α} (h : B ≠ []) :
    (A ++ B).getLast? = B.getLast? := by
  induction A with
  | nil => simp
  | cons a t ih =>
    have hne : t ++ B ≠ [] := by
      intro hc
      rcases List.append_eq_nil.mp hc with ⟨_, hB⟩
      exact h hB
    rw [List.cons_append, getLast?_cons_of_ne_nil a hne]
    exact ih

/-! ## RRT-Connect (`geometric/planners/rrt_connect.rs`) -/

structure RRTConnect.Node (S : Type) where
  state : S
  parent_index : Option ℕ

inductive ExtendResult where
  | advanced
  | reached
deriving DecidableEq

/-- `RRTConnect::extend`: steer the nearest node of `tree` toward
`q_target` by at most `max_distance`; append the new node if the motion is
valid, returning the outcome and the new node's index. -/
def RRTConnect.extend {S : Type} (sp : StateSpace S) (vc : S → Bool)
    (max_distance : ℝ) (tree : List (RRTConnect.Node S)) (q_target : S) :
    Option (ExtendResult × ℕ) × List (RRTConnect.Node S) :=
  match tree with
  | [] => (none, [])  -- unreachable: the source reads tree[0]
  | t0 :: rest =>
    let scan := nearest_scan (fun nd => sp.distance nd.state q_target) (t0 :: rest)
    let q_near := ((t0 :: rest).getD scan.1 t0).state
    let step := if scan.2 > max_distance
      then (ExtendResult.advanced,
        sp.interpolate q_near q_target (max_distance / scan.2))
      else (ExtendResult.reached, q_target)
    if RRTConnect.check_motion sp vc q_near step.2 then
      (some (step.1, (t0 :: rest).length), (t0 :: rest) ++ [⟨step.2, some scan.1⟩])
    else (none, t0 :: rest)

/-- `RRTConnect::reconstruct_path`. -/
def RRTConnect.reconstruct_path {S : Type} (tree : List (RRTConnect.Node S))
    (last_node_idx : ℕ) : List S :=
  (walk_states RRTConnect.Node.state RRTConnect.Node.parent_index tree
    tree.length last_node_idx).reverse

/-- `RRTConnect::setup`: seeds the start tree with the first start state
and the goal tree with one `sample_goal` draw, which the source
`unwrap()`s — a sampling error panics (`none`) instead of being reported. -/
def RRTConnect.setup {S : Type} (start : S)
    (goal_sample : Except StateSamplingError S) :
    Option (List (RRTConnect.Node S) × List (RRTConnect.Node S)) :=
  match goal_sample with
  | .error _ => none
  | .ok g => some ([⟨start, none⟩], [⟨g, none⟩])

/-- `RRTConnect::solve`: the source's `is_growing_start_tree` flag is
resolved into the two branches of the size comparison. -/
def RRTConnect.solve_loop {S : Type} (sp : StateSpace S) (vc : S → Bool)
    (goal : S → Bool) (max_distance : ℝ) :
    List (Draw S) → List (RRTConnect.Node S) → List (RRTConnect.Node S) →
      SolveResult S
  | [], _, _ => .err .timeout
  | (_, .error e) :: _, _, _ => .panicked e
  | (_, .ok q_rand) :: draws, start_tree, goal_tree =>
    if start_tree.length ≤ goal_tree.length then
      match RRTConnect.extend sp vc max_distance start_tree q_rand with
      | (none, st₁) => RRTConnect.solve_loop sp vc goal max_distance draws st₁ goal_tree
      | (some (_, idx_a), st₁) =>
        match st₁.get? idx_a with
        | none => .err .noSolutionFound  -- unreachable: idx_a is the appended node
        | some nd_a =>
          if goal nd_a.state then
            .ok (RRTConnect.reconstruct_path st₁ idx_a)
          else
            match RRTConnect.extend sp vc max_distance goal_tree nd_a.state with
            | (none, gt₁) => RRTConnect.solve_loop sp vc goal max_distance draws st₁ gt₁
            | (some (res_b, idx_b), gt₁) =>
              if res_b = ExtendResult.reached then
                .ok (RRTConnect.reconstruct_path st₁ idx_a ++
                  ((RRTConnect.reconstruct_path gt₁ idx_b).reverse.drop 1))
              else RRTConnect.solve_loop sp vc goal max_distance draws st₁ gt₁
    else
      match RRTConnect.extend sp vc max_distance goal_tree q_rand with
      | (none, gt₁) => RRTConnect.solve_loop sp vc goal max_distance draws start_tree gt₁
      | (some (_, idx_a), gt₁) =>
        match gt₁.get? idx_a with
        | none => .err .noSolutionFound  -- unreachable
        | some nd_a =>
          match RRTConnect.extend sp vc max_distance start_tree nd_a.state with
          | (none, st₁) => RRTConnect.solve_loop sp vc goal max_distance draws st₁ gt₁
          | (some (res_b, idx_b), st₁) =>
            if res_b = ExtendResult.reached then
              .ok (RRTConnect.reconstruct_path st₁ idx_b ++
                ((RRTConnect.reconstruct_path gt₁ idx_a).reverse.drop 1))
            else RRTConnect.solve_loop sp vc goal max_distance draws st₁ gt₁

/-- `RRTConnect::solve` after a successful `setup` whose goal-tree root is
`groot`. -/
def RRTConnect.solve {S : Type} (sp : StateSpace S) (vc : S → Bool)
    (goal : S → Bool) (max_distance : ℝ) (start groot : S)
    (draws : List (Draw S)) : SolveResult S :=
  RRTConnect.solve_loop sp vc goal max_distance draws [⟨start, none⟩] [⟨groot, none⟩]

/-- `extend` either leaves the tree unchanged (trapped) or appends exactly
one node, parented at an existing index, and reports the old length as the
new node's index. -/
theorem RRTConnect.extend_shape {S : Type} (sp : StateSpace S) (vc : S → Bool)
    (max_distance : ℝ) (tree : List (RRTConnect.Node S)) (q_target : S) :
    RRTConnect.extend sp vc max_distance tree q_target = (none, tree) ∨
    ∃ r q pidx, pidx < tree.length ∧
      RRTConnect.extend sp vc max_distance tree q_target =
        (some (r, tree.length), tree ++ [⟨q, some pidx⟩]) := by
  match tree with
  | [] => exact Or.inl rfl
  | t0 :: rest =>
    rw [RRTConnect.extend]
    set scan := nearest_scan (fun nd => sp.distance nd.state q_target) (t0 :: rest)
      with hscan
    set q_near := ((t0 :: rest).getD scan.1 t0).state with hqnear
    set step := if scan.2 > max_distance
      then (ExtendResult.advanced, sp.interpolate q_near q_target (max_distance / scan.2))
      else (ExtendResult.reached, q_target) with hstep
    by_cases hcm : RRTConnect.check_motion sp vc q_near step.2 = true
    · rw [if_pos hcm]
      exact Or.inr ⟨step.1, step.2, scan.1,
        nearest_scan_lt (fun nd : RRTConnect.Node S => sp.distance nd.state q_target)
          t0 rest, rfl⟩
    · rw [if_neg hcm]
      exact Or.inl rfl

theorem RRTConnect.reconstruct_path_spec {S : Type}
    (tree : List (RRTConnect.Node S)) (root : S)
    (hinv : TreeInv RRTConnect.Node.state RRTConnect.Node.parent_index root tree)
    (idx : ℕ) (nd : RRTConnect.Node S) (hnd : tree.get? idx = some nd) :
    RRTConnect.reconstruct_path tree idx ≠ [] ∧
    (RRTConnect.reconstruct_path tree idx).head? = some root ∧
    (RRTConnect.reconstruct_path tree idx).getLast? = some nd.state := by
  have hidx : idx < tree.length := lt_length_of_get?_eq_some hnd
  have hw := walk_states_spec RRTConnect.Node.state RRTConnect.Node.parent_index
    root tree hinv idx tree.length hidx hidx nd hnd
  refine ⟨by simp [RRTConnect.reconstruct_path, hw.1], ?_, ?_⟩
  · rw [RRTConnect.reconstruct_path, List.head?_reverse]
    exact hw.2.2
  · rw [RRTConnect.reconstruct_path, List.getLast?_reverse]
    exact hw.2.1

/-- The merged bidirectional path: non-empty, starts at the start-tree
root and ends at the goal-tree root. -/
theorem RRTConnect.merge_spec {S : Type}
    (TS TG : List (RRTConnect.Node S)) (start groot : S)
    (hinvS : TreeInv RRTConnect.Node.state RRTConnect.Node.parent_index start TS)
    (hinvG : TreeInv RRTConnect.Node.state RRTConnect.Node.parent_index groot TG)
    (iS : ℕ) (ndS : RRTConnect.Node S) (hiS : TS.get? iS = some ndS)
    (iG pidx : ℕ) (q : S) (hndG : TG.get? iG = some ⟨q, some pidx⟩)
    (hpidx : pidx < iG) :
    RRTConnect.reconstruct_path TS iS ++
      ((RRTConnect.reconstruct_path TG iG).reverse.drop 1) ≠ [] ∧
    (RRTConnect.reconstruct_path TS iS ++
      ((RRTConnect.reconstruct_path TG iG).reverse.drop 1)).head? = some start ∧
    (RRTConnect.reconstruct_path TS iS ++
      ((RRTConnect.reconstruct_path TG iG).reverse.drop 1)).getLast? = some groot := by
  have hSspec := RRTConnect.reconstruct_path_spec TS start hinvS iS ndS hiS
  have hiGlen : iG < TG.length := lt_length_of_get?_eq_some hndG
  have hpG : pidx < TG.length := lt_trans hpidx hiGlen
  obtain ⟨ndp, hndp⟩ : ∃ ndp, TG.get? pidx = some ndp := by
    rw [List.get?_eq_get hpG]
    exact ⟨_, rfl⟩
  obtain ⟨m, hm⟩ : ∃ m, TG.length = m + 1 := ⟨TG.length - 1, by omega⟩
  have hwalkG : walk_states RRTConnect.Node.state RRTConnect.Node.parent_index
      TG TG.length iG =
      RRTConnect.Node.state ⟨q, some pidx⟩ ::
        walk_states RRTConnect.Node.state RRTConnect.Node.parent_index TG m pidx := by
    rw [hm]
    exact walk_states_eq_some _ _ TG m iG pidx _ hndG rfl
  have hpfuel : pidx < m := by omega
  have hwp := walk_states_spec RRTConnect.Node.state RRTConnect.Node.parent_index
    groot TG hinvG pidx m hpG hpfuel ndp hndp
  have hdrop : (RRTConnect.reconstruct_path TG iG).reverse.drop 1 =
      walk_states RRTConnect.Node.state RRTConnect.Node.parent_index TG m pidx := by
    rw [RRTConnect.reconstruct_path, List.reverse_reverse, hwalkG]
    rfl
  rw [hdrop]
  refine ⟨?_, ?_, ?_⟩
  · intro hc
    rcases List.append_eq_nil.mp hc with ⟨hA, _⟩
    exact hSspec.1 hA
  · rw [head?_append_of_ne_nil _ _ hSspec.1]
    exact hSspec.2.1
  · rw [getLast?_append_of_ne_nil _ hwp.1]
    exact hwp.2.2

theorem RRTConnect.connect_solve_loop_ok {S : Type} (sp : StateSpace S) (vc : S → Bool)
    (goal : S → Bool) (max_distance : ℝ) :
    ∀ (draws : List (Draw S)) (st gt : List (RRTConnect.Node S)) (start groot : S),
      TreeInv RRTConnect.Node.state RRTConnect.Node.parent_index start st →
      TreeInv RRTConnect.Node.state RRTConnect.Node.parent_index groot gt →
      goal groot = true →
      ∀ path, RRTConnect.solve_loop sp vc goal max_distance draws st gt = .ok path →
        path ≠ [] ∧ path.head? = some start ∧
        ∃ g, path.getLast? = some g ∧ goal g = true := by
  intro draws
  induction draws with
  | nil =>
    intro st gt start groot _ _ _ path h
    simp [RRTConnect.solve_loop] at h
  | cons d draws ih =>
    intro st gt start groot hinvS hinvG hgroot path h
    match d with
    | (b, .error e) => simp [RRTConnect.solve_loop] at h
    | (b, .ok q_rand) =>
      simp only [RRTConnect.solve_loop] at h
      by_cases hsz : st.length ≤ gt.length
      · rw [if_pos hsz] at h
        rcases RRTConnect.extend_shape sp vc max_distance st q_rand with
          heq | ⟨r, q, pidx, hpidx, heq⟩
        · simp only [heq] at h
          exact ih st gt start groot hinvS hinvG hgroot path h
        · simp only [heq] at h
          have hget : (st ++ [(⟨q, some pidx⟩ : RRTConnect.Node S)]).get? st.length =
              some ⟨q, some pidx⟩ := List.get?_concat_length _ _
          simp only [hget] at h
          have hinvS₁ : TreeInv RRTConnect.Node.state RRTConnect.Node.parent_index
              start (st ++ [⟨q, some pidx⟩]) :=
            TreeInv_append _ _ _ _ hinvS _ pidx rfl hpidx
          by_cases hg : goal q = true
          · rw [if_pos hg] at h
            cases h
            have hspec := RRTConnect.reconstruct_path_spec _ start hinvS₁
              st.length ⟨q, some pidx⟩ hget
            exact ⟨hspec.1, hspec.2.1, ⟨q, hspec.2.2, hg⟩⟩
          · rw [if_neg hg] at h
            rcases RRTConnect.extend_shape sp vc max_distance gt q with
              heqG | ⟨rG, qG, pidxG, hpidxG, heqG⟩
            · simp only [heqG] at h
              exact ih _ gt start groot hinvS₁ hinvG hgroot path h
            · simp only [heqG] at h
              have hinvG₁ : TreeInv RRTConnect.Node.state RRTConnect.Node.parent_index
                  groot (gt ++ [⟨qG, some pidxG⟩]) :=
                TreeInv_append _ _ _ _ hinvG _ pidxG rfl hpidxG
              by_cases hr : rG = ExtendResult.reached
              · rw [if_pos hr] at h
                cases h
                have hgetG : (gt ++ [(⟨qG, some pidxG⟩ : RRTConnect.Node S)]).get?
                    gt.length = some ⟨qG, some pidxG⟩ := List.get?_concat_length _ _
                have hmerge := RRTConnect.merge_spec _ _ start groot hinvS₁ hinvG₁
                  st.length ⟨q, some pidx⟩ hget gt.length pidxG qG hgetG hpidxG
                exact ⟨hmerge.1, hmerge.2.1, ⟨groot, hmerge.2.2, hgroot⟩⟩
              · rw [if_neg hr] at h
                exact ih _ _ start groot hinvS₁ hinvG₁ hgroot path h
      · rw [if_neg hsz] at h
        rcases RRTConnect.extend_shape sp vc max_distance gt q_rand with
          heq | ⟨r, q, pidx, hpidx, heq⟩
        · simp only [heq] at h
          exact ih st gt start groot hinvS hinvG hgroot path h
        · simp only [heq] at h
          have hget : (gt ++ [(⟨q, some pidx⟩ : RRTConnect.Node S)]).get? gt.length =
              some ⟨q, some pidx⟩ := List.get?_concat_length _ _
          simp only [hget] at h
          have hinvG₁ : TreeInv RRTConnect.Node.state RRTConnect.Node.parent_index
              groot (gt ++ [⟨q, some pidx⟩]) :=
            TreeInv_append _ _ _ _ hinvG _ pidx rfl hpidx
          rcases RRTConnect.extend_shape sp vc max_distance st q with
            heqS | ⟨rS, qS, pidxS, hpidxS, heqS⟩
          · simp only [heqS] at h
            exact ih _ _ start groot hinvS hinvG₁ hgroot path h
          · simp only [heqS] at h
            have hinvS₁ : TreeInv RRTConnect.Node.state RRTConnect.Node.parent_index
                start (st ++ [⟨qS, some pidxS⟩]) :=
              TreeInv_append _ _ _ _ hinvS _ pidxS rfl hpidxS
            by_cases hr : rS = ExtendResult.reached
            · rw [if_pos hr] at h
              cases h
              have hgetS : (st ++ [(⟨qS, some pidxS⟩ : RRTConnect.Node S)]).get?
                  st.length = some ⟨qS, some pidxS⟩ := List.get?_concat_length _ _
              have hmerge := RRTConnect.merge_spec _ _ start groot hinvS₁ hinvG₁
                st.length ⟨qS, some pidxS⟩ hgetS gt.length pidx q hget hpidx
              exact ⟨hmerge.1, hmerge.2.1, ⟨groot, hmerge.2.2, hgroot⟩⟩
            · rw [if_neg hr] at h
              exact ih _ _ start groot hinvS₁ hinvG₁ hgroot path h

/-! ## RRT* (`geometric/planners/rrt_star.rs`) -/

structure RRTStar.Node (S : Type) where
  state : S
  parent_index : Option ℕ
  cost : ℝ

/-- `RRTStar::cost`: the cost to reach `current_node` were it parented by
`neighbour_node`. -/
def RRTStar.cost {S : Type} (sp : StateSpace S)
    (current_node neighbour_node : RRTStar.Node S) : ℝ :=
  neighbour_node.cost + sp.distance current_node.state neighbour_node.state

/-- `RRTStar::find_neighbours`: linear scan for indices within
`search_radius` of the node. -/
def RRTStar.find_neighbours {S : Type} (sp : StateSpace S)
    (tree : List (RRTStar.Node S)) (node : RRTStar.Node S)
    (search_radius : ℝ) : List ℕ :=
  (List.range tree.length).filter (fun i =>
    decide (sp.distance node.state (((tree.get? i).getD node).state) < search_radius))

/-- The "choose parent" fold (`rrt_star.rs` step 6): start from the
nearest node and move to any neighbour that is strictly cheaper and
reachable by a valid motion. -/
def RRTStar.choose_parent {S : Type} (sp : StateSpace S) (vc : S → Bool)
    (tree : List (RRTStar.Node S)) (temp_node : RRTStar.Node S)
    (nearest_index : ℕ) (neighbours : List ℕ) : ℕ × ℝ :=
  neighbours.foldl
    (fun best n =>
      let neighbour_node := (tree.get? n).getD temp_node
      let cost_via_neighbour := RRTStar.cost sp temp_node neighbour_node
      if cost_via_neighbour < best.2 ∧
          RRTStar.check_motion sp vc neighbour_node.state temp_node.state
      then (n, cost_via_neighbour) else best)
    (nearest_index, RRTStar.cost sp temp_node ((tree.get? nearest_index).getD temp_node))

/-- The rewire fold (`rrt_star.rs` step 8): re-parent a neighbour through
the new node when that is strictly cheaper and the motion is valid.  The
`none` fallthroughs are unreachable (all indices are in range; the source
would panic). -/
def RRTStar.rewire {S : Type} (sp : StateSpace S) (vc : S → Bool)
    (tree : List (RRTStar.Node S)) (new_node_index : ℕ)
    (neighbours : List ℕ) : List (RRTStar.Node S) :=
  neighbours.foldl
    (fun tr n =>
      match tr.get? new_node_index, tr.get? n with
      | some new_node, some neighbour_node =>
        if new_node.parent_index = some n then tr
        else
          let cost_via_new_node := RRTStar.cost sp neighbour_node new_node
          if cost_via_new_node < neighbour_node.cost ∧
              RRTStar.check_motion sp vc new_node.state neighbour_node.state
          then tr.set n ⟨neighbour_node.state, some new_node_index, cost_via_new_node⟩
          else tr
      | _, _ => tr)
    tree

/-- `RRTStar::reconstruct_path`. -/
def RRTStar.reconstruct_path {S : Type} (tree : List (RRTStar.Node S))
    (start_node_idx : ℕ) : List S :=
  (walk_states RRTStar.Node.state RRTStar.Node.parent_index tree
    tree.length start_node_idx).reverse

/-- `RRTStar::solve` with the RNG draws and deadline made explicit. -/
def RRTStar.solve_loop {S : Type} (sp : StateSpace S) (vc : S → Bool)
    (goal : S → Bool) (max_distance search_radius : ℝ) :
    List (Draw S) → List (RRTStar.Node S) → SolveResult S
  | [], _ => .err .timeout
  | (_, .error e) :: _, _ => .panicked e
  | (_, .ok q_rand) :: draws, tree =>
    match tree with
    | [] => .err .plannerUninitialised  -- unreachable: setup seeds the tree
    | t0 :: rest =>
      let scan := nearest_scan (fun nd => sp.distance nd.state q_rand) (t0 :: rest)
      let q_near := ((t0 :: rest).getD scan.1 t0).state
      let q_new := if scan.2 > max_distance
        then sp.interpolate q_near q_rand (max_distance / scan.2)
        else q_rand
      if RRTStar.check_motion sp vc q_near q_new then
        let temp_node : RRTStar.Node S := ⟨q_new, none, 0⟩
        let neighbours := RRTStar.find_neighbours sp (t0 :: rest) temp_node search_radius
        let best := RRTStar.choose_parent sp vc (t0 :: rest) temp_node scan.1 neighbours
        let new_tree := (t0 :: rest) ++ [⟨q_new, some best.1, best.2⟩]
        let rewired := RRTStar.rewire sp vc new_tree (new_tree.length - 1) neighbours
        if goal q_new then .ok (RRTStar.reconstruct_path rewired (rewired.length - 1))
        else RRTStar.solve_loop sp vc goal max_distance search_radius draws rewired
      else RRTStar.solve_loop sp vc goal max_distance search_radius draws (t0 :: rest)

/-- `RRTStar::solve` after `RRTStar::setup`: the tree is the single start
node with no parent and cost `0`. -/
def RRTStar.solve {S : Type} (sp : StateSpace S) (vc : S → Bool) (goal : S → Bool)
    (max_distance search_radius : ℝ) (start : S) (draws : List (Draw S)) :
    SolveResult S :=
  RRTStar.solve_loop sp vc goal max_distance search_radius draws [⟨start, none, 0⟩]

/-! ## Claim C4 groundwork: the choose-parent and rewire folds -/

/-- The body of the choose-parent fold, factored for the lemmas below. -/
def RRTStar.cp_step {S : Type} (sp : StateSpace S) (vc : S → Bool)
    (tree : List (RRTStar.Node S)) (temp_node : RRTStar.Node S)
    (best : ℕ × ℝ) (n : ℕ) : ℕ × ℝ :=
  let neighbour_node := (tree.get? n).getD temp_node
  let cost_via_neighbour := RRTStar.cost sp temp_node neighbour_node
  if cost_via_neighbour < best.2 ∧
      RRTStar.check_motion sp vc neighbour_node.state temp_node.state
  then (n, cost_via_neighbour) else best

theorem RRTStar.choose_parent_eq_foldl {S : Type} (sp : StateSpace S) (vc : S → Bool)
    (tree : List (RRTStar.Node S)) (temp_node : RRTStar.Node S)
    (nearest_index : ℕ) (ns : List ℕ) :
    RRTStar.choose_parent sp vc tree temp_node nearest_index ns =
      ns.foldl (RRTStar.cp_step sp vc tree temp_node)
        (nearest_index,
          RRTStar.cost sp temp_node ((tree.get? nearest_index).getD temp_node)) := rfl

theorem RRTStar.cp_fold_spec {S : Type} (sp : StateSpace S) (vc : S → Bool)
    (tree : List (RRTStar.Node S)) (temp_node : RRTStar.Node S) :
    ∀ (ns : List ℕ) (init : ℕ × ℝ),
      init.2 = RRTStar.cost sp temp_node ((tree.get? init.1).getD temp_node) →
      ∀ res, res = ns.foldl (RRTStar.cp_step sp vc tree temp_node) init →
      res.2 = RRTStar.cost sp temp_node ((tree.get? res.1).getD temp_node) ∧
      res.2 ≤ init.2 ∧
      (res.1 = init.1 ∨ (res.1 ∈ ns ∧
        RRTStar.check_motion sp vc ((tree.get? res.1).getD temp_node).state
          temp_node.state = true)) ∧
      (∀ n ∈ ns,
        RRTStar.check_motion sp vc ((tree.get? n).getD temp_node).state
          temp_node.state = true →
        res.2 ≤ RRTStar.cost sp temp_node ((tree.get? n).getD temp_node)) := by
  intro ns
  induction ns with
  | nil =>
    intro init hinit res hres
    subst hres
    exact ⟨hinit, le_refl _, Or.inl rfl, by intro n hn; cases hn⟩
  | cons n t ih =>
    intro init hinit res hres
    simp only [List.foldl_cons] at hres
    by_cases hc : RRTStar.cost sp temp_node ((tree.get? n).getD temp_node) < init.2 ∧
        RRTStar.check_motion sp vc ((tree.get? n).getD temp_node).state
          temp_node.state = true
    · have hstep : RRTStar.cp_step sp vc tree temp_node init n =
          (n, RRTStar.cost sp temp_node ((tree.get? n).getD temp_node)) := by
        rw [RRTStar.cp_step, if_pos hc]
      rw [hstep] at hres
      obtain ⟨h1, h2, h3, h4⟩ := ih _ rfl res hres
      refine ⟨h1, le_trans h2 (le_of_lt hc.1), ?_, ?_⟩
      · rcases h3 with h | ⟨hm, hcm⟩
        · exact Or.inr ⟨by rw [h]; exact List.mem_cons_self _ _, by rw [h]; exact hc.2⟩
        · exact Or.inr ⟨List.mem_cons_of_mem _ hm, hcm⟩
      · intro m hm hcm
        rcases List.mem_cons.mp hm with h | h
        · subst h
          exact h2
        · exact h4 m h hcm
    · have hstep : RRTStar.cp_step sp vc tree temp_node init n = init := by
        rw [RRTStar.cp_step, if_neg hc]
      rw [hstep] at hres
      obtain ⟨h1, h2, h3, h4⟩ := ih init hinit res hres
      refine ⟨h1, h2, ?_, ?_⟩
      · rcases h3 with h | ⟨hm, hcm⟩
        · exact Or.inl h
        · exact Or.inr ⟨List.mem_cons_of_mem _ hm, hcm⟩
      · intro m hm hcm
        rcases List.mem_cons.mp hm with h | h
        · subst h
          rcases not_and_or.mp hc with hlt | hmot
          · push_neg at hlt
            exact le_trans h2 hlt
          · exact absurd hcm hmot
        · exact h4 m h hcm

/-- The body of the rewire fold, factored for the lemmas below. -/
def RRTStar.rw_step {S : Type} (sp : StateSpace S) (vc : S → Bool)
    (new_node_index : ℕ) (tr : List (RRTStar.Node S)) (n : ℕ) :
    List (RRTStar.Node S) :=
  match tr.get? new_node_index, tr.get? n with
  | some new_node, some neighbour_node =>
    if new_node.parent_index = some n then tr
    else
      let cost_via_new_node := RRTStar.cost sp neighbour_node new_node
      if cost_via_new_node < neighbour_node.cost ∧
          RRTStar.check_motion sp vc new_node.state neighbour_node.state
      then tr.set n ⟨neighbour_node.state, some new_node_index, cost_via_new_node⟩
      else tr
  | _, _ => tr

theorem RRTStar.rewire_eq_foldl {S : Type} (sp : StateSpace S) (vc : S → Bool)
    (tree : List (RRTStar.Node S)) (new_node_index : ℕ) (ns : List ℕ) :
    RRTStar.rewire sp vc tree new_node_index ns =
      ns.foldl (RRTStar.rw_step sp vc new_node_index) tree := rfl

theorem RRTStar.rw_step_length {S : Type} (sp : StateSpace S) (vc : S → Bool)
    (new_node_index : ℕ) (tr : List (RRTStar.Node S)) (n : ℕ) :
    (RRTStar.rw_step sp vc new_node_index tr n).length = tr.length := by
  rw [RRTStar.rw_step]
  rcases h1 : tr.get? new_node_index with _ | newNd <;>
    rcases h2 : tr.get? n with _ | nb <;> simp only
  split
  · rfl
  · split
    · exact List.length_set _ _ _
    · rfl

theorem RRTStar.rw_step_get?_ne {S : Type} (sp : StateSpace S) (vc : S → Bool)
    (new_node_index : ℕ) (tr : List (RRTStar.Node S)) (n j : ℕ) (hj : j ≠ n) :
    (RRTStar.rw_step sp vc new_node_index tr n).get? j = tr.get? j := by
  rw [RRTStar.rw_step]
  rcases h1 : tr.get? new_node_index with _ | newNd <;>
    rcases h2 : tr.get? n with _ | nb <;> simp only
  split
  · rfl
  · split
    · exact List.get?_set_ne _ _ (Ne.symm hj)
    · rfl

theorem RRTStar.rw_step_get?_self {S : Type} (sp : StateSpace S) (vc : S → Bool)
    (new_node_index : ℕ) (tr : List (RRTStar.Node S)) (n : ℕ)
    (nb newNd : RRTStar.Node S) (hn : tr.get? n = some nb)
    (hnew : tr.get? new_node_index = some newNd) :
    (RRTStar.rw_step sp vc new_node_index tr n).get? n =
      (if newNd.parent_index = some n then some nb
       else if RRTStar.cost sp nb newNd < nb.cost ∧
           RRTStar.check_motion sp vc newNd.state nb.state
         then some ⟨nb.state, some new_node_index, RRTStar.cost sp nb newNd⟩
         else some nb) := by
  have hlt : n < tr.length := lt_length_of_get?_eq_some hn
  rw [RRTStar.rw_step, hn, hnew]
  simp only
  split
  · rw [hn]
  · split
    · rw [List.get?_set_eq_of_lt _ hlt]
    · rw [hn]

theorem RRTStar.rw_step_unreachable {S : Type} (sp : StateSpace S) (vc : S → Bool)
    (new_node_index : ℕ) (tr : List (RRTStar.Node S)) (n : ℕ)
    (h : tr.get? new_node_index = none ∨ tr.get? n = none) :
    RRTStar.rw_step sp vc new_node_index tr n = tr := by
  rw [RRTStar.rw_step]
  rcases h1 : tr.get? new_node_index with _ | newNd <;>
    rcases h2 : tr.get? n with _ | nb <;> simp only
  rcases h with h | h
  · rw [h1] at h
    cases h
  · rw [h2] at h
    cases h

theorem RRTStar.rewire_fold_spec {S : Type} (sp : StateSpace S) (vc : S → Bool)
    (new_node_index : ℕ) :
    ∀ (ns : List ℕ), ns.Nodup → (∀ n ∈ ns, n < new_node_index) →
    ∀ (tr res : List (RRTStar.Node S)),
      res = ns.foldl (RRTStar.rw_step sp vc new_node_index) tr →
      res.length = tr.length ∧
      (∀ j, j ∉ ns → res.get? j = tr.get? j) ∧
      (∀ n ∈ ns, ∀ nb newNd, tr.get? n = some nb →
        tr.get? new_node_index = some newNd →
        res.get? n =
          (if newNd.parent_index = some n then some nb
           else if RRTStar.cost sp nb newNd < nb.cost ∧
               RRTStar.check_motion sp vc newNd.state nb.state
             then some ⟨nb.state, some new_node_index, RRTStar.cost sp nb newNd⟩
             else some nb)) := by
  intro ns
  induction ns with
  | nil =>
    intro _ _ tr res hres
    subst hres
    exact ⟨rfl, fun _ _ => rfl, fun n hn => absurd hn (List.not_mem_nil n)⟩
  | cons n t ih =>
    intro hnodup hlt tr res hres
    simp only [List.foldl_cons] at hres
    have hnt : n ∉ t := (List.nodup_cons.mp hnodup).1
    have hnodt : t.Nodup := (List.nodup_cons.mp hnodup).2
    have hltt : ∀ m ∈ t, m < new_node_index :=
      fun m hm => hlt m (List.mem_cons_of_mem _ hm)
    have hnlt : n < new_node_index := hlt n (List.mem_cons_self _ _)
    obtain ⟨hlen, hout, hmem⟩ := ih hnodt hltt _ res hres
    have hstep_len := RRTStar.rw_step_length sp vc new_node_index tr n
    have hstep_new : (RRTStar.rw_step sp vc new_node_index tr n).get?
        new_node_index = tr.get? new_node_index :=
      RRTStar.rw_step_get?_ne sp vc new_node_index tr n new_node_index
        (Ne.symm (Nat.ne_of_lt hnlt))
    refine ⟨by rw [hlen, hstep_len], ?_, ?_⟩
    · intro j hj
      have hjn : j ≠ n := fun hc => hj (hc ▸ List.mem_cons_self _ _)
      have hjt : j ∉ t := fun hc => hj (List.mem_cons_of_mem _ hc)
      rw [hout j hjt]
      exact RRTStar.rw_step_get?_ne sp vc new_node_index tr n j hjn
    · intro m hm nb newNd hnb hnew
      rcases List.mem_cons.mp hm with h | h
      · subst h
        rw [hout m hnt]
        exact RRTStar.rw_step_get?_self sp vc new_node_index tr m nb newNd hnb hnew
      · have hmn : m ≠ n := fun hc => hnt (hc ▸ h)
        have hnb₁ : (RRTStar.rw_step sp vc new_node_index tr n).get? m = some nb := by
          rw [RRTStar.rw_step_get?_ne sp vc new_node_index tr n m hmn]
          exact hnb
        have hnew₁ : (RRTStar.rw_step sp vc new_node_index tr n).get?
            new_node_index = some newNd := by
          rw [hstep_new]
          exact hnew
        exact hmem m h nb newNd hnb₁ hnew₁

/-- Claim C4: the RRT* root has cost 0; `find_neighbours` collects exactly
the indices within `search_radius`; the choose-parent fold yields a
candidate parent whose recorded cost is its own `cost + distance` value,
minimal over the nearest node and every neighbour admitting a valid motion
to the new state; and the rewire fold re-parents a neighbour `n` to the
new node with the candidate cost exactly when that cost is strictly below
`n`'s and the motion from the new node is valid, modifying no other node
(in particular neither the new node nor any descendant of `n`). -/
theorem C4_rrtstar_choose_parent_and_rewire :
    (∀ (S : Type) (start : S),
      ([⟨start, none, 0⟩] : List (RRTStar.Node S)).get? 0 = some ⟨start, none, 0⟩) ∧
    (∀ (S : Type) (sp : StateSpace S) (tree : List (RRTStar.Node S))
        (node : RRTStar.Node S) (r : ℝ) (n : ℕ),
      n ∈ RRTStar.find_neighbours sp tree node r ↔
        n < tree.length ∧
          sp.distance node.state ((tree.get? n).getD node).state < r) ∧
    (∀ (S : Type) (sp : StateSpace S) (vc : S → Bool) (tree : List (RRTStar.Node S))
        (temp_node : RRTStar.Node S) (nearest_index : ℕ) (ns : List ℕ),
      ∀ best, best = RRTStar.choose_parent sp vc tree temp_node nearest_index ns →
        best.2 = RRTStar.cost sp temp_node ((tree.get? best.1).getD temp_node) ∧
        (best.1 = nearest_index ∨ (best.1 ∈ ns ∧
          RRTStar.check_motion sp vc ((tree.get? best.1).getD temp_node).state
            temp_node.state = true)) ∧
        best.2 ≤ RRTStar.cost sp temp_node
          ((tree.get? nearest_index).getD temp_node) ∧
        (∀ n ∈ ns,
          RRTStar.check_motion sp vc ((tree.get? n).getD temp_node).state
            temp_node.state = true →
          best.2 ≤ RRTStar.cost sp temp_node ((tree.get? n).getD temp_node))) ∧
    (∀ (S : Type) (sp : StateSpace S) (vc : S → Bool) (tree : List (RRTStar.Node S))
        (temp_node : RRTStar.Node S) (r : ℝ) (nd_new : RRTStar.Node S),
      ∀ res, res = RRTStar.rewire sp vc (tree ++ [nd_new]) tree.length
          (RRTStar.find_neighbours sp tree temp_node r) →
        res.length = (tree ++ [nd_new]).length ∧
        res.get? tree.length = some nd_new ∧
        (∀ j, j ∉ RRTStar.find_neighbours sp tree temp_node r →
          res.get? j = (tree ++ [nd_new]).get? j) ∧
        (∀ n ∈ RRTStar.find_neighbours sp tree temp_node r, ∀ nb,
          tree.get? n = some nb →
          res.get? n =
            (if nd_new.parent_index = some n then some nb
             else if RRTStar.cost sp nb nd_new < nb.cost ∧
                 RRTStar.check_motion sp vc nd_new.state nb.state
               then some ⟨nb.state, some tree.length, RRTStar.cost sp nb nd_new⟩
               else some nb))) := by
  have hfn : ∀ (S : Type) (sp : StateSpace S) (tree : List (RRTStar.Node S))
      (node : RRTStar.Node S) (r : ℝ) (n : ℕ),
      n ∈ RRTStar.find_neighbours sp tree node r ↔
        n < tree.length ∧
          sp.distance node.state ((tree.get? n).getD node).state < r := by
    intro S sp tree node r n
    rw [RRTStar.find_neighbours, List.mem_filter, List.mem_range]
    simp only [decide_eq_true_eq]
  refine ⟨fun _ _ => rfl, hfn, ?_, ?_⟩
  · intro S sp vc tree temp_node nearest_index ns best hbest
    rw [RRTStar.choose_parent_eq_foldl] at hbest
    obtain ⟨h1, h2, h3, h4⟩ := RRTStar.cp_fold_spec sp vc tree temp_node ns
      (nearest_index, RRTStar.cost sp temp_node
        ((tree.get? nearest_index).getD temp_node)) rfl best hbest
    exact ⟨h1, h3, h2, h4⟩
  · intro S sp vc tree temp_node r nd_new res hres
    rw [RRTStar.rewire_eq_foldl] at hres
    have hnodup : (RRTStar.find_neighbours sp tree temp_node r).Nodup :=
      List.Nodup.filter _ (List.nodup_range _)
    have hlt : ∀ n ∈ RRTStar.find_neighbours sp tree temp_node r, n < tree.length :=
      fun n hn => ((hfn S sp tree temp_node r n).mp hn).1
    obtain ⟨h1, h2, h3⟩ := RRTStar.rewire_fold_spec sp vc tree.length
      (RRTStar.find_neighbours sp tree temp_node r) hnodup hlt
      (tree ++ [nd_new]) res hres
    have hnew : (tree ++ [nd_new]).get? tree.length = some nd_new :=
      List.get?_concat_length _ _
    refine ⟨h1, ?_, h2, ?_⟩
    · have hnotin : tree.length ∉ RRTStar.find_neighbours sp tree temp_node r :=
        fun hc => absurd (hlt _ hc) (lt_irrefl _)
      rw [h2 tree.length hnotin]
      exact hnew
    · intro n hn nb hnb
      have hnb' : (tree ++ [nd_new]).get? n = some nb := by
        rw [List.get?_append (hlt n hn)]
        exact hnb
      exact h3 n hn nb nd_new hnb' hnew

/-- Witness for C4: the minimality clause of the choose-parent fold
applied on the trivial one-point space with a single-node tree and
neighbour list `[0]`, all hypotheses discharged by evaluation. -/
theorem C4_rrtstar_choose_parent_and_rewire_witness :
    (RRTStar.choose_parent (⟨fun _ _ => 0, fun _ _ _ => (), 1⟩ : StateSpace Unit)
      (fun _ => true) [⟨(), none, 0⟩] ⟨(), none, 0⟩ 0 [0]).2 ≤
      RRTStar.cost (⟨fun _ _ => 0, fun _ _ _ => (), 1⟩ : StateSpace Unit)
        ⟨(), none, 0⟩ ((([⟨(), none, 0⟩] :
          List (RRTStar.Node Unit)).get? 0).getD ⟨(), none, 0⟩) := by
  refine (C4_rrtstar_choose_parent_and_rewire.2.2.1 Unit
    ⟨fun _ _ => 0, fun _ _ _ => (), 1⟩ (fun _ => true) [⟨(), none, 0⟩]
    ⟨(), none, 0⟩ 0 [0] _ rfl).2.2.2 0 (List.mem_singleton.mpr rfl) ?_
  rw [RRTStar.check_motion]
  norm_num

/-! ## Parent chains for the RRT* tree

Rewiring re-parents nodes to a *larger* index, so the simple
decreasing-parent argument of RRT does not apply.  Acyclicity is tracked
explicitly: a `PChain` is the (deterministic) walk from a node along
parent indices down to a parentless node. -/

def pfOf {S : Type} (tree : List (RRTStar.Node S)) : ℕ → Option ℕ :=
  fun i => (tree.get? i).bind RRTStar.Node.parent_index

inductive PChain (pf : ℕ → Option ℕ) : ℕ → List ℕ → Prop where
  | nil (i : ℕ) : pf i = none → PChain pf i [i]
  | cons (i j : ℕ) (ch : List ℕ) : pf i = some j → PChain pf j ch →
      PChain pf i (i :: ch)

theorem PChain.ne_nil {pf : ℕ → Option ℕ} {i : ℕ} {ch : List ℕ}
    (h : PChain pf i ch) : ch ≠ [] := by
  cases h <;> simp

theorem PChain.head_eq {pf : ℕ → Option ℕ} {i : ℕ} {ch : List ℕ}
    (h : PChain pf i ch) : ∃ t, ch = i :: t := by
  cases h with
  | nil _ _ => exact ⟨[], rfl⟩
  | cons _ j ch _ _ => exact ⟨ch, rfl⟩

theorem PChain.mem_self {pf : ℕ → Option ℕ} {i : ℕ} {ch : List ℕ}
    (h : PChain pf i ch) : i ∈ ch := by
  obtain ⟨t, ht⟩ := h.head_eq
  rw [ht]
  exact List.mem_cons_self _ _

theorem PChain.deterministic {pf : ℕ → Option ℕ} :
    ∀ {i : ℕ} {ch ch' : List ℕ}, PChain pf i ch → PChain pf i ch' → ch = ch' := by
  intro i ch ch' h
  induction h generalizing ch' with
  | nil i hpf =>
    intro h'
    cases h' with
    | nil _ _ => rfl
    | cons _ j _ hpf' _ =>
      rw [hpf] at hpf'
      cases hpf'
  | cons i j ch hpf hch ih =>
    intro h'
    cases h' with
    | nil _ hpf' =>
      rw [hpf] at hpf'
      cases hpf'
    | cons _ j' ch' hpf' hch' =>
      rw [hpf] at hpf'
      cases hpf'
      rw [ih hch']

theorem PChain.transfer {pf pf2 : ℕ → Option ℕ} :
    ∀ {i : ℕ} {ch : List ℕ}, PChain pf i ch → (∀ x ∈ ch, pf2 x = pf x) →
      PChain pf2 i ch := by
  intro i ch h
  induction h with
  | nil i hpf =>
    intro hag
    exact PChain.nil i (by rw [hag i (List.mem_singleton.mpr rfl)]; exact hpf)
  | cons i j ch hpf hch ih =>
    intro hag
    exact PChain.cons i j ch
      (by rw [hag i (List.mem_cons_self _ _)]; exact hpf)
      (ih (fun x hx => hag x (List.mem_cons_of_mem _ hx)))

theorem PChain.mem_split {pf : ℕ → Option ℕ} :
    ∀ {i : ℕ} {ch : List ℕ}, PChain pf i ch → ∀ {x : ℕ}, x ∈ ch →
      ∃ pre chx, ch = pre ++ chx ∧ PChain pf x chx ∧ x ∉ pre := by
  intro i ch h
  induction h with
  | nil i hpf =>
    intro x hx
    rw [List.mem_singleton] at hx
    subst hx
    exact ⟨[], [x], rfl, PChain.nil x hpf, List.not_mem_nil x⟩
  | cons i j ch hpf hch ih =>
    intro x hx
    rcases List.mem_cons.mp hx with h | h
    · subst h
      exact ⟨[], x :: ch, rfl, PChain.cons x j ch hpf hch, List.not_mem_nil x⟩
    · by_cases hxi : x = i
      · subst hxi
        exact ⟨[], x :: ch, rfl, PChain.cons x j ch hpf hch, List.not_mem_nil x⟩
      · obtain ⟨pre, chx, heq, hchx, hxpre⟩ := ih h
        exact ⟨i :: pre, chx, by rw [heq, List.cons_append], hchx,
          by
            intro hc
            rcases List.mem_cons.mp hc with h' | h'
            · exact hxi h'
            · exact hxpre h'⟩

theorem PChain.cons_inv {pf : ℕ → Option ℕ} {i a : ℕ} {rest : List ℕ}
    (h : PChain pf i (a :: rest)) :
    i = a ∧ (rest = [] ∧ pf i = none ∨ ∃ j, pf i = some j ∧ PChain pf j rest) := by
  cases h with
  | nil _ hpf => exact ⟨rfl, Or.inl ⟨rfl, hpf⟩⟩
  | cons _ j ch hpf hch => exact ⟨rfl, Or.inr ⟨j, hpf, hch⟩⟩

theorem PChain.replace_suffix {pf pf2 : ℕ → Option ℕ} {x : ℕ} {chx ch2 : List ℕ}
    (hchx : PChain pf x chx) (hch2 : PChain pf2 x ch2) :
    ∀ (pre : List ℕ) (i : ℕ), PChain pf i (pre ++ chx) →
      (∀ y ∈ pre, pf2 y = pf y) → PChain pf2 i (pre ++ ch2) := by
  intro pre
  induction pre with
  | nil =>
    intro i h _
    simp only [List.nil_append] at h ⊢
    obtain ⟨t, ht⟩ := hchx.head_eq
    obtain ⟨t', ht'⟩ := h.head_eq
    rw [ht] at ht'
    cases ht'
    exact hch2
  | cons a pre ih =>
    intro i h hag
    rw [List.cons_append] at h
    obtain ⟨hia, hrest⟩ := h.cons_inv
    subst hia
    rcases hrest with ⟨hnil, _⟩ | ⟨j, hpf, hrest⟩
    · exact absurd (List.append_eq_nil.mp hnil).2 hchx.ne_nil
    · rw [List.cons_append]
      exact PChain.cons i j _
        (by rw [hag i (List.mem_cons_self _ _)]; exact hpf)
        (ih j hrest (fun y hy => hag y (List.mem_cons_of_mem _ hy)))

theorem nodup_bounded_length {l : List ℕ} (hn : l.Nodup) (n : ℕ)
    (hb : ∀ x ∈ l, x < n) : l.length ≤ n := by
  have hcard : l.toFinset.card = l.length := List.toFinset_card_of_nodup hn
  have hsub : l.toFinset ⊆ Finset.range n := by
    intro x hx
    rw [List.mem_toFinset] at hx
    rw [Finset.mem_range]
    exact hb x hx
  have := Finset.card_le_card hsub
  rw [hcard, Finset.card_range] at this
  exact this

/-- The RRT* tree invariant: node 0 is the start with no parent and cost
0; every other node has a parent of strictly positive provenance whose
recorded cost plus the edge distance is at most the node's recorded cost;
costs are non-negative; and every node's parent walk is a duplicate-free
chain through valid indices. -/
def StarInv {S : Type} (sp : StateSpace S) (start : S)
    (tree : List (RRTStar.Node S)) : Prop :=
  tree.get? 0 = some ⟨start, none, 0⟩ ∧
  (∀ i nd, tree.get? i = some nd → nd.parent_index = none → i = 0) ∧
  (∀ i nd p, tree.get? i = some nd → nd.parent_index = some p →
    p < tree.length ∧ ∃ pn, tree.get? p = some pn ∧
      pn.cost + sp.distance nd.state pn.state ≤ nd.cost) ∧
  (∀ i nd, tree.get? i = some nd → 0 ≤ nd.cost) ∧
  (∀ i, i < tree.length → ∃ ch, PChain (pfOf tree) i ch ∧ ch.Nodup ∧
    ∀ x ∈ ch, x < tree.length)

theorem pfOf_eq_some {S : Type} {tree : List (RRTStar.Node S)} {i j : ℕ}
    (h : pfOf tree i = some j) :
    ∃ nd, tree.get? i = some nd ∧ nd.parent_index = some j := by
  rw [pfOf] at h
  rcases hg : tree.get? i with _ | nd
  · rw [hg] at h
    cases h
  · rw [hg] at h
    exact ⟨nd, rfl, h⟩

/-- Along a parent chain, recorded costs are monotone: every ancestor's
cost is at most the node's cost (distances are non-negative). -/
theorem chain_cost_le {S : Type} (sp : StateSpace S) (start : S)
    (tree : List (RRTStar.Node S)) (hinv : StarInv sp start tree)
    (hd : ∀ a b : S, 0 ≤ sp.distance a b) :
    ∀ {i : ℕ} {ch : List ℕ}, PChain (pfOf tree) i ch → ∀ {x : ℕ}, x ∈ ch →
      ∀ ndi ndx, tree.get? i = some ndi → tree.get? x = some ndx →
        ndx.cost ≤ ndi.cost := by
  intro i ch h
  induction h with
  | nil i _ =>
    intro x hx ndi ndx hndi hndx
    rw [List.mem_singleton] at hx
    subst hx
    rw [hndi] at hndx
    cases hndx
    exact le_refl _
  | cons i j ch hpf hch ih =>
    intro x hx ndi ndx hndi hndx
    rcases List.mem_cons.mp hx with h | h
    · subst h
      rw [hndi] at hndx
      cases hndx
      exact le_refl _
    · obtain ⟨nd, hnd, hpar⟩ := pfOf_eq_some hpf
      rw [hndi] at hnd
      cases hnd
      obtain ⟨_, pn, hpn, hcost⟩ := hinv.2.2.1 i ndi j hndi hpar
      have h1 := ih h pn ndx hpn hndx
      have h2 := hd ndi.state pn.state
      linarith

/-- The rewire guard `cand < n.cost` can never hold for an ancestor `n` of
the new node, so re-parenting keeps the tree acyclic. -/
theorem rewire_not_ancestor {S : Type} (sp : StateSpace S) (start : S)
    (tree : List (RRTStar.Node S)) (hinv : StarInv sp start tree)
    (hd : ∀ a b : S, 0 ≤ sp.distance a b)
    {newIdx n : ℕ} {chN : List ℕ} (hch : PChain (pfOf tree) newIdx chN)
    {ndnew nb : RRTStar.Node S} (hnew : tree.get? newIdx = some ndnew)
    (hnb : tree.get? n = some nb)
    (hcond : RRTStar.cost sp nb ndnew < nb.cost) : n ∉ chN := by
  intro hmem
  have hle := chain_cost_le sp start tree hinv hd hch hmem ndnew nb hnew hnb
  rw [RRTStar.cost] at hcond
  have := hd nb.state ndnew.state
  linarith

/-- Under `StarInv`, the reconstruction walk from any valid node is
non-empty, starts at that node's state and ends at the start state. -/
theorem RRTStar.walk_spec {S : Type} (sp : StateSpace S) (start : S)
    (tree : List (RRTStar.Node S)) (hinv : StarInv sp start tree) :
    ∀ {i : ℕ} {ch : List ℕ}, PChain (pfOf tree) i ch →
      (∀ x ∈ ch, x < tree.length) →
      ∀ fuel, ch.length ≤ fuel →
      ∀ nd, tree.get? i = some nd →
      walk_states RRTStar.Node.state RRTStar.Node.parent_index tree fuel i ≠ [] ∧
      (walk_states RRTStar.Node.state RRTStar.Node.parent_index
        tree fuel i).head? = some nd.state ∧
      (walk_states RRTStar.Node.state RRTStar.Node.parent_index
        tree fuel i).getLast? = some start := by
  intro i ch h
  induction h with
  | nil i hpf =>
    intro _ fuel hfuel nd hnd
    match fuel with
    | 0 => simp at hfuel
    | fuel + 1 =>
      have hpar : nd.parent_index = none := by
        rw [pfOf, hnd] at hpf
        exact hpf
      have hi0 : i = 0 := hinv.2.1 i nd hnd hpar
      subst hi0
      rw [hinv.1] at hnd
      cases hnd
      rw [walk_states_eq_none _ _ tree fuel 0 _ hinv.1 rfl]
      simp
  | cons i j ch hpf hch ih =>
    intro hbound fuel hfuel nd hnd
    match fuel with
    | 0 => simp at hfuel
    | fuel + 1 =>
      obtain ⟨nd', hnd', hpar⟩ := pfOf_eq_some hpf
      rw [hnd] at hnd'
      cases hnd'
      obtain ⟨hjlt, pn, hpn, _⟩ := hinv.2.2.1 i nd j hnd hpar
      have hrec := ih (fun x hx => hbound x (List.mem_cons_of_mem _ hx)) fuel
        (by simp only [List.length_cons] at hfuel; omega) pn hpn
      rw [walk_states_eq_some _ _ tree fuel i j nd hnd hpar]
      refine ⟨by simp, by simp, ?_⟩
      rw [getLast?_cons_of_ne_nil _ hrec.1]
      exact hrec.2.2

/-- `RRTStar::reconstruct_path` under the invariant. -/
theorem RRTStar.star_reconstruct_path_spec {S : Type} (sp : StateSpace S) (start : S)
    (tree : List (RRTStar.Node S)) (hinv : StarInv sp start tree)
    (idx : ℕ) (nd : RRTStar.Node S) (hnd : tree.get? idx = some nd) :
    RRTStar.reconstruct_path tree idx ≠ [] ∧
    (RRTStar.reconstruct_path tree idx).head? = some start ∧
    (RRTStar.reconstruct_path tree idx).getLast? = some nd.state := by
  have hidx : idx < tree.length := lt_length_of_get?_eq_some hnd
  obtain ⟨ch, hch, hnodup, hbound⟩ := hinv.2.2.2.2 idx hidx
  have hfuel : ch.length ≤ tree.length := nodup_bounded_length hnodup _ hbound
  have hw := RRTStar.walk_spec sp start tree hinv hch hbound tree.length hfuel nd hnd
  refine ⟨by simp [RRTStar.reconstruct_path, hw.1], ?_, ?_⟩
  · rw [RRTStar.reconstruct_path, List.head?_reverse]
    exact hw.2.2
  · rw [RRTStar.reconstruct_path, List.getLast?_reverse]
    exact hw.2.1

theorem pfOf_append_lt {S : Type} (tree l : List (RRTStar.Node S)) {x : ℕ}
    (hx : x < tree.length) : pfOf (tree ++ l) x = pfOf tree x := by
  rw [pfOf, pfOf, List.get?_append hx]

/-- Inserting the new node with the chosen parent and its recorded cost
preserves the invariant. -/
theorem StarInv.append {S : Type} {sp : StateSpace S} {start : S}
    {tree : List (RRTStar.Node S)} (hinv : StarInv sp start tree)
    (hd : ∀ a b : S, 0 ≤ sp.distance a b) (q_new : S) (bidx : ℕ) (c : ℝ)
    (pn : RRTStar.Node S) (hpn : tree.get? bidx = some pn)
    (hc : pn.cost + sp.distance q_new pn.state ≤ c) :
    StarInv sp start (tree ++ [⟨q_new, some bidx, c⟩]) := by
  have hblt : bidx < tree.length := lt_length_of_get?_eq_some hpn
  have hlen : (tree ++ [(⟨q_new, some bidx, c⟩ : RRTStar.Node S)]).length =
      tree.length + 1 := by simp
  have hget_new : (tree ++ [(⟨q_new, some bidx, c⟩ : RRTStar.Node S)]).get?
      tree.length = some ⟨q_new, some bidx, c⟩ := List.get?_concat_length _ _
  have hsplit : ∀ i nd, (tree ++ [(⟨q_new, some bidx, c⟩ : RRTStar.Node S)]).get? i =
      some nd → (i < tree.length ∧ tree.get? i = some nd) ∨
      (i = tree.length ∧ nd = ⟨q_new, some bidx, c⟩) := by
    intro i nd hnd
    by_cases hi : i < tree.length
    · rw [List.get?_append hi] at hnd
      exact Or.inl ⟨hi, hnd⟩
    · have hil := lt_length_of_get?_eq_some hnd
      rw [hlen] at hil
      have : i = tree.length := by omega
      subst this
      rw [hget_new] at hnd
      cases hnd
      exact Or.inr ⟨rfl, rfl⟩
  have hlen0 : 0 < tree.length := lt_length_of_get?_eq_some hinv.1
  refine ⟨?_, ?_, ?_, ?_, ?_⟩
  · rw [List.get?_append hlen0]
    exact hinv.1
  · intro i nd hnd hpar
    rcases hsplit i nd hnd with ⟨hi, hnd'⟩ | ⟨_, hnd'⟩
    · exact hinv.2.1 i nd hnd' hpar
    · subst hnd'
      cases hpar
  · intro i nd p hnd hpar
    rcases hsplit i nd hnd with ⟨hi, hnd'⟩ | ⟨hi, hnd'⟩
    · obtain ⟨hplt, qn, hqn, hcost⟩ := hinv.2.2.1 i nd p hnd' hpar
      refine ⟨by rw [hlen]; omega, qn, ?_, hcost⟩
      rw [List.get?_append hplt]
      exact hqn
    · subst hnd'
      cases hpar
      refine ⟨by rw [hlen]; omega, pn, ?_, hc⟩
      rw [List.get?_append hblt]
      exact hpn
  · intro i nd hnd
    rcases hsplit i nd hnd with ⟨hi, hnd'⟩ | ⟨_, hnd'⟩
    · exact hinv.2.2.2.1 i nd hnd'
    · subst hnd'
      have h0 := hinv.2.2.2.1 bidx pn hpn
      have := hd q_new pn.state
      simp only
      linarith
  · intro i hi
    rw [hlen] at hi
    by_cases hilt : i < tree.length
    · obtain ⟨ch, hch, hnodup, hbound⟩ := hinv.2.2.2.2 i hilt
      refine ⟨ch, ?_, hnodup, fun x hx => by have := hbound x hx; omega⟩
      exact hch.transfer (fun x hx => pfOf_append_lt tree _ (hbound x hx))
    · have hieq : i = tree.length := by omega
      subst hieq
      obtain ⟨ch, hch, hnodup, hbound⟩ := hinv.2.2.2.2 bidx hblt
      refine ⟨tree.length :: ch, ?_, ?_, ?_⟩
      · refine PChain.cons tree.length bidx ch ?_ ?_
        · rw [pfOf, hget_new]
          rfl
        · exact hch.transfer (fun x hx => pfOf_append_lt tree _ (hbound x hx))
      · rw [List.nodup_cons]
        exact ⟨fun hc => absurd (hbound _ hc) (lt_irrefl _), hnodup⟩
      · intro x hx
        rcases List.mem_cons.mp hx with h | h
        · subst h
          omega
        · have := hbound x h
          omega

/-- Every element of the prefix of a chain has a chain ending in the same
suffix. -/
theorem PChain.pre_mem_chain {pf : ℕ → Option ℕ} :
    ∀ (pre suf : List ℕ) (i : ℕ), PChain pf i (pre ++ suf) →
      ∀ y ∈ pre, ∃ pre2, PChain pf y (pre2 ++ suf) := by
  intro pre
  induction pre with
  | nil => intro suf i _ y hy; cases hy
  | cons a pre ih =>
    intro suf i h y hy
    rw [List.cons_append] at h
    obtain ⟨hia, hrest⟩ := h.cons_inv
    subst hia
    rcases List.mem_cons.mp hy with hya | hy'
    · subst hya
      exact ⟨y :: pre, by rw [List.cons_append]; exact h⟩
    · rcases hrest with ⟨hnil, _⟩ | ⟨j, hpf, hrest⟩
      · obtain ⟨hpre, _⟩ := List.append_eq_nil.mp hnil
        subst hpre
        cases hy'
      · exact ih suf j hrest y hy'

/-- A single rewire step preserves the RRT* invariant (the neighbour index
is below the new node's index, distances are non-negative). -/
theorem StarInv.rw_step {S : Type} {sp : StateSpace S} (vc : S → Bool) {start : S}
    {tr : List (RRTStar.Node S)} (hinv : StarInv sp start tr)
    (hd : ∀ a b : S, 0 ≤ sp.distance a b)
    (newIdx n : ℕ) (hn_lt : n < newIdx) :
    StarInv sp start (RRTStar.rw_step sp vc newIdx tr n) := by
  rcases hnew : tr.get? newIdx with _ | newNd
  · rw [RRTStar.rw_step_unreachable sp vc newIdx tr n (Or.inl hnew)]
    exact hinv
  rcases hnb : tr.get? n with _ | nb
  · rw [RRTStar.rw_step_unreachable sp vc newIdx tr n (Or.inr hnb)]
    exact hinv
  have hstep : RRTStar.rw_step sp vc newIdx tr n =
      if newNd.parent_index = some n then tr
      else if RRTStar.cost sp nb newNd < nb.cost ∧
          RRTStar.check_motion sp vc newNd.state nb.state
        then tr.set n ⟨nb.state, some newIdx, RRTStar.cost sp nb newNd⟩
        else tr := by
    rw [RRTStar.rw_step, hnew, hnb]
  rw [hstep]
  split
  · exact hinv
  split
  case isFalse => exact hinv
  case isTrue hcond =>
  -- the rewiring branch: tr.set n ⟨nb.state, some newIdx, cand⟩
  have hnewlt : newIdx < tr.length := lt_length_of_get?_eq_some hnew
  have hnlt : n < tr.length := lt_length_of_get?_eq_some hnb
  have hcand_nonneg : 0 ≤ RRTStar.cost sp nb newNd := by
    have h1 := hinv.2.2.2.1 newIdx newNd hnew
    have h2 := hd nb.state newNd.state
    rw [RRTStar.cost]
    linarith
  have hn0 : n ≠ 0 := by
    intro hc
    subst hc
    rw [hinv.1] at hnb
    cases hnb
    have := hcond.1
    simp only at this
    linarith
  set x : RRTStar.Node S := ⟨nb.state, some newIdx, RRTStar.cost sp nb newNd⟩
    with hx
  have hset_len : (tr.set n x).length = tr.length := List.length_set _ _ _
  have hget_n : (tr.set n x).get? n = some x := List.get?_set_eq_of_lt _ hnlt
  have hget_ne : ∀ j, j ≠ n → (tr.set n x).get? j = tr.get? j :=
    fun j hj => List.get?_set_ne _ _ (Ne.symm hj)
  have hsplit : ∀ i nd, (tr.set n x).get? i = some nd →
      (i = n ∧ nd = x) ∨ (i ≠ n ∧ tr.get? i = some nd) := by
    intro i nd hnd
    by_cases hi : i = n
    · subst hi
      rw [hget_n] at hnd
      cases hnd
      exact Or.inl ⟨rfl, rfl⟩
    · rw [hget_ne i hi] at hnd
      exact Or.inr ⟨hi, hnd⟩
  have hpf_ne : ∀ y, y ≠ n → pfOf (tr.set n x) y = pfOf tr y := by
    intro y hy
    rw [pfOf, pfOf, hget_ne y hy]
  have hpf_n : pfOf (tr.set n x) n = some newIdx := by
    rw [pfOf, hget_n]
    rfl
  obtain ⟨chN, hchN, hchN_nodup, hchN_bound⟩ := hinv.2.2.2.2 newIdx hnewlt
  have hnot : n ∉ chN :=
    rewire_not_ancestor sp start tr hinv hd hchN hnew hnb hcond.1
  have hchN' : PChain (pfOf (tr.set n x)) newIdx chN :=
    hchN.transfer (fun y hy => hpf_ne y (fun hc => hnot (hc ▸ hy)))
  have hchNn : PChain (pfOf (tr.set n x)) n (n :: chN) :=
    PChain.cons n newIdx chN hpf_n hchN'
  refine ⟨?_, ?_, ?_, ?_, ?_⟩
  · rw [hget_ne 0 (Ne.symm hn0)]
    exact hinv.1
  · intro i nd hnd hpar
    rcases hsplit i nd hnd with ⟨hi, hnd'⟩ | ⟨hi, hnd'⟩
    · subst hnd'
      rw [hx] at hpar
      cases hpar
    · exact hinv.2.1 i nd hnd' hpar
  · intro i nd p hnd hpar
    rcases hsplit i nd hnd with ⟨hi, hnd'⟩ | ⟨hi, hnd'⟩
    · subst hnd'
      subst hi
      rw [hx] at hpar
      simp only at hpar
      cases hpar
      refine ⟨by rw [hset_len]; exact hnewlt, newNd, ?_, ?_⟩
      · rw [hget_ne newIdx (Ne.symm (Nat.ne_of_lt hn_lt))]
        exact hnew
      · rw [hx]
        simp only [RRTStar.cost]
        exact le_refl _
    · obtain ⟨hplt, pn, hpn, hcost⟩ := hinv.2.2.1 i nd p hnd' hpar
      refine ⟨by rw [hset_len]; exact hplt, ?_⟩
      by_cases hpn' : p = n
      · subst hpn'
        rw [hpn] at hnb
        cases hnb
        refine ⟨x, hget_n, ?_⟩
        rw [hx]
        simp only
        have := hcond.1
        linarith
      · exact ⟨pn, by rw [hget_ne p hpn']; exact hpn, hcost⟩
  · intro i nd hnd
    rcases hsplit i nd hnd with ⟨_, hnd'⟩ | ⟨_, hnd'⟩
    · subst hnd'
      exact hcand_nonneg
    · exact hinv.2.2.2.1 i nd hnd'
  · intro i hi
    rw [hset_len] at hi
    obtain ⟨ch, hch, hnodup, hbound⟩ := hinv.2.2.2.2 i hi
    by_cases hmem : n ∈ ch
    · obtain ⟨pre, chn, hcheq, hchn, hnpre⟩ := hch.mem_split hmem
      refine ⟨pre ++ (n :: chN), ?_, ?_, ?_⟩
      · refine PChain.replace_suffix hchn hchNn pre i (hcheq ▸ hch) ?_
        intro y hy
        exact hpf_ne y (fun hc => hnpre (hc ▸ hy))
      · rw [List.nodup_append]
        have hnodup_pre : pre.Nodup ∧ chn.Nodup ∧ pre.Disjoint chn := by
          rw [hcheq, List.nodup_append] at hnodup
          exact hnodup
        refine ⟨hnodup_pre.1, ?_, ?_⟩
        · rw [List.nodup_cons]
          exact ⟨hnot, hchN_nodup⟩
        · intro y hy hy2
          rcases List.mem_cons.mp hy2 with hyn | hyN
          · exact hnpre (hyn ▸ hy)
          · obtain ⟨pre2, hpre2⟩ := PChain.pre_mem_chain pre chn i
              (hcheq ▸ hch) y hy
            obtain ⟨preN, chyN, hchNeq, hchyN, _⟩ := hchN.mem_split hyN
            have hdet := hpre2.deterministic hchyN
            have hnin : n ∈ chyN := by
              rw [← hdet]
              exact List.mem_append_right _ hchn.mem_self
            exact hnot (hchNeq ▸ List.mem_append_right preN hnin)
      · intro y hy
        rw [hset_len]
        rcases List.mem_append.mp hy with hy | hy
        · exact hbound y (hcheq ▸ List.mem_append_left _ hy)
        · rcases List.mem_cons.mp hy with hyn | hyN
          · subst hyn
            exact hnlt
          · exact hchN_bound y hyN
    · refine ⟨ch, ?_, hnodup, fun y hy => by rw [hset_len]; exact hbound y hy⟩
      exact hch.transfer (fun y hy => hpf_ne y (fun hc => hmem (hc ▸ hy)))

theorem StarInv.rewire_fold {S : Type} {sp : StateSpace S} (vc : S → Bool)
    {start : S} (hd : ∀ a b : S, 0 ≤ sp.distance a b) (newIdx : ℕ) :
    ∀ (ns : List ℕ), (∀ n ∈ ns, n < newIdx) →
    ∀ tr : List (RRTStar.Node S), StarInv sp start tr →
      StarInv sp start (ns.foldl (RRTStar.rw_step sp vc newIdx) tr) := by
  intro ns
  induction ns with
  | nil => intro _ tr hinv; exact hinv
  | cons n t ih =>
    intro hlt tr hinv
    rw [List.foldl_cons]
    exact ih (fun m hm => hlt m (List.mem_cons_of_mem _ hm))
      _ (hinv.rw_step vc hd newIdx n (hlt n (List.mem_cons_self _ _)))

theorem RRTStar.star_solve_loop_ok {S : Type} (sp : StateSpace S) (vc : S → Bool)
    (goal : S → Bool) (max_distance search_radius : ℝ)
    (hd : ∀ a b : S, 0 ≤ sp.distance a b) :
    ∀ (draws : List (Draw S)) (tree : List (RRTStar.Node S)) (start : S),
      StarInv sp start tree →
      ∀ path, RRTStar.solve_loop sp vc goal max_distance search_radius draws tree =
          .ok path →
        path ≠ [] ∧ path.head? = some start ∧
        ∃ g, path.getLast? = some g ∧ goal g = true := by
  intro draws
  induction draws with
  | nil =>
    intro tree start _ path h
    simp [RRTStar.solve_loop] at h
  | cons d draws ih =>
    intro tree start hinv path h
    match d with
    | (b, .error e) => simp [RRTStar.solve_loop] at h
    | (b, .ok q_rand) =>
      match tree with
      | [] =>
        have := hinv.1
        simp at this
      | t0 :: rest =>
        simp only [RRTStar.solve_loop] at h
        set scan := nearest_scan (fun nd => sp.distance nd.state q_rand) (t0 :: rest)
          with hscan
        set q_near := ((t0 :: rest).getD scan.1 t0).state with hqnear
        set q_new := if scan.2 > max_distance
          then sp.interpolate q_near q_rand (max_distance / scan.2)
          else q_rand with hqnew
        by_cases hcm : RRTStar.check_motion sp vc q_near q_new = true
        · rw [if_pos hcm] at h
          set temp_node : RRTStar.Node S := ⟨q_new, none, 0⟩ with htemp
          set ns := RRTStar.find_neighbours sp (t0 :: rest) temp_node search_radius
            with hns
          set best := RRTStar.choose_parent sp vc (t0 :: rest) temp_node scan.1 ns
            with hbest
          have hns_lt : ∀ n ∈ ns, n < (t0 :: rest).length := by
            intro n hn
            rw [hns, RRTStar.find_neighbours, List.mem_filter, List.mem_range] at hn
            exact hn.1
          have hns_nodup : ns.Nodup := List.Nodup.filter _ (List.nodup_range _)
          have hbest_lt : best.1 < (t0 :: rest).length := by
            obtain ⟨_, _, h3, _⟩ := RRTStar.cp_fold_spec sp vc (t0 :: rest) temp_node
              ns (scan.1, RRTStar.cost sp temp_node
                (((t0 :: rest).get? scan.1).getD temp_node)) rfl best hbest
            rcases h3 with hb | ⟨hb, _⟩
            · rw [hb]
              exact nearest_scan_lt _ t0 rest
            · exact hns_lt _ hb
          obtain ⟨pn, hpn⟩ : ∃ pn, (t0 :: rest).get? best.1 = some pn := by
            rw [List.get?_eq_get hbest_lt]
            exact ⟨_, rfl⟩
          have hbest_cost : best.2 = pn.cost + sp.distance q_new pn.state := by
            obtain ⟨h1, _, _, _⟩ := RRTStar.cp_fold_spec sp vc (t0 :: rest) temp_node
              ns (scan.1, RRTStar.cost sp temp_node
                (((t0 :: rest).get? scan.1).getD temp_node)) rfl best hbest
            rw [h1, hpn, RRTStar.cost]
            simp [htemp]
          set new_tree := (t0 :: rest) ++ [(⟨q_new, some best.1, best.2⟩ :
            RRTStar.Node S)] with hnew_tree
          have hinv₂ : StarInv sp start new_tree :=
            hinv.append hd q_new best.1 best.2 pn hpn (le_of_eq hbest_cost.symm)
          have hlen1 : new_tree.length - 1 = (t0 :: rest).length := by
            rw [hnew_tree]
            simp
          rw [hlen1] at h
          set rewired := RRTStar.rewire sp vc new_tree (t0 :: rest).length ns
            with hrewired
          have hinv₃ : StarInv sp start rewired := by
            rw [hrewired, RRTStar.rewire_eq_foldl]
            exact StarInv.rewire_fold vc hd (t0 :: rest).length ns hns_lt
              new_tree hinv₂
          obtain ⟨hrlen, hrout, _⟩ := RRTStar.rewire_fold_spec sp vc
            (t0 :: rest).length ns hns_nodup hns_lt new_tree rewired
            (by rw [hrewired, RRTStar.rewire_eq_foldl])
          have hrget : rewired.get? (t0 :: rest).length =
              some ⟨q_new, some best.1, best.2⟩ := by
            rw [hrout _ (fun hc => absurd (hns_lt _ hc) (lt_irrefl _)), hnew_tree]
            exact List.get?_concat_length _ _
          by_cases hg : goal q_new = true
          · rw [if_pos hg] at h
            have hrlen1 : rewired.length - 1 = (t0 :: rest).length := by
              rw [hrlen, hnew_tree]
              simp
            rw [hrlen1] at h
            cases h
            have hspec := RRTStar.star_reconstruct_path_spec sp start rewired hinv₃
              (t0 :: rest).length ⟨q_new, some best.1, best.2⟩ hrget
            exact ⟨hspec.1, hspec.2.1, ⟨q_new, hspec.2.2, hg⟩⟩
          · rw [if_neg hg] at h
            exact ih rewired start hinv₃ path h
        · rw [if_neg hcm] at h
          exact ih (t0 :: rest) start hinv path h

/-! ## PRM (`geometric/planners/prm.rs`) -/

structure PRM.Node (S : Type) where
  state : S
  edges : List ℕ

/-- One edge-list update of the construction loop: append the new node's
index to an existing neighbour's adjacency list (`prm.rs` lines 143-145).
The `none` fallthrough is unreachable (the index is in range). -/
def PRM.update_step {S : Type} (new_node_idx : ℕ)
    (rm : List (PRM.Node S)) (i : ℕ) : List (PRM.Node S) :=
  match rm.get? i with
  | some nd => rm.set i ⟨nd.state, nd.edges ++ [new_node_idx]⟩
  | none => rm

/-- One iteration of `PRM::construct_roadmap`'s sampling loop: if the
sample is valid, connect it to every in-range, motion-valid node and
append it; the recorded neighbours get the new index appended
symmetrically. -/
def PRM.construct_insert {S : Type} (sp : StateSpace S) (vc : S → Bool)
    (connection_radius : ℝ) (roadmap : List (PRM.Node S)) (q_rand : S) :
    List (PRM.Node S) :=
  if vc q_rand then
    let to_update := (List.range roadmap.length).filter (fun i =>
      decide (sp.distance q_rand
        (((roadmap.get? i).getD ⟨q_rand, []⟩).state) < connection_radius) &&
      PRM.check_motion sp vc q_rand (((roadmap.get? i).getD ⟨q_rand, []⟩).state))
    let new_node_idx := roadmap.length
    to_update.foldl (PRM.update_step new_node_idx)
      (roadmap ++ [⟨q_rand, to_update⟩])
  else roadmap

/-- The construction sampling loop; a sampling error panics (the source
`unwrap()`s `sample_uniform`), an exhausted draw list is the deadline. -/
def PRM.construct_loop {S : Type} (sp : StateSpace S) (vc : S → Bool)
    (connection_radius : ℝ) :
    List (Except StateSamplingError S) → List (PRM.Node S) →
      Option (List (PRM.Node S))
  | [], roadmap => some roadmap
  | .error _ :: _, _ => none
  | .ok q :: rest, roadmap =>
    PRM.construct_loop sp vc connection_radius rest
      (PRM.construct_insert sp vc connection_radius roadmap q)

/-- `PRM::construct_roadmap` (configured planner): no-op when the roadmap
is already non-empty. -/
def PRM.construct_roadmap {S : Type} (sp : StateSpace S) (vc : S → Bool)
    (connection_radius : ℝ) (roadmap : List (PRM.Node S))
    (samples : List (Except StateSamplingError S)) :
    Option (List (PRM.Node S)) :=
  if roadmap.isEmpty then PRM.construct_loop sp vc connection_radius samples roadmap
  else some roadmap

/-- The roadmap indices within `connection_radius` of the start that are
reachable from it by a valid motion (`prm.rs` lines 249-256). -/
def PRM.start_connections {S : Type} (sp : StateSpace S) (vc : S → Bool)
    (connection_radius : ℝ) (roadmap : List (PRM.Node S)) (start_state : S) :
    List ℕ :=
  (List.range roadmap.length).filter (fun i =>
    decide (sp.distance start_state
      (((roadmap.get? i).getD ⟨start_state, []⟩).state) < connection_radius) &&
    PRM.check_motion sp vc start_state
      (((roadmap.get? i).getD ⟨start_state, []⟩).state))

/-- The roadmap indices whose state satisfies the goal predicate
(`prm.rs` lines 259-264). -/
def PRM.goal_indices {S : Type} (goal : S → Bool) (roadmap : List (PRM.Node S))
    (start_state : S) : List ℕ :=
  (List.range roadmap.length).filter (fun i =>
    goal (((roadmap.get? i).getD ⟨start_state, []⟩).state))

/-- The breadth-first search of `PRM::solve`.  `fuel` is the number of
dequeues the solve deadline allows: the clock is checked after each
dequeue, so running out with a non-empty queue returns `Timeout`.  The
`none` fallthrough is unreachable (queued indices are in range). -/
def PRM.bfs {S : Type} (roadmap : List (PRM.Node S)) (goals : List ℕ) :
    ℕ → List ℕ → List (ℕ × Option ℕ) → List Bool →
      Except PlanningError (Option ℕ × List (ℕ × Option ℕ))
  | _, [], parent_map, _ => .ok (none, parent_map)
  | 0, _ :: _, _, _ => .error .timeout
  | fuel + 1, current :: queue, parent_map, visited =>
    if current ∈ goals then .ok (some current, parent_map)
    else
      match roadmap.get? current with
      | none => PRM.bfs roadmap goals fuel queue parent_map visited
      | some nd =>
        let step := nd.edges.foldl
          (fun (acc : List ℕ × List (ℕ × Option ℕ) × List Bool) nb =>
            if acc.2.2.getD nb true then acc
            else (acc.1 ++ [nb], (nb, some current) :: acc.2.1, acc.2.2.set nb true))
          (queue, parent_map, visited)
        PRM.bfs roadmap goals fuel step.1 step.2.1 step.2.2

/-- The parent-map walk of `PRM::reconstruct_path`, with fuel
`roadmap.length`; the fallthrough is unreachable under the BFS invariants
(the source indexes the map and would panic). -/
def PRM.walk_parent_map {S : Type} (roadmap : List (PRM.Node S))
    (parent_map : List (ℕ × Option ℕ)) : ℕ → ℕ → List S
  | 0, _ => []
  | fuel + 1, current =>
    match parent_map.lookup current, roadmap.get? current with
    | some po, some nd =>
      (match po with
       | none => [nd.state]
       | some parent => nd.state :: PRM.walk_parent_map roadmap parent_map fuel parent)
    | _, _ => []

/-- `PRM::reconstruct_path`: the start state followed by the reversed
roadmap walk from the goal node to its BFS seed. -/
def PRM.reconstruct_path {S : Type} (roadmap : List (PRM.Node S))
    (start_state : S) (parent_map : List (ℕ × Option ℕ)) (goal_idx : ℕ) :
    List S :=
  start_state :: (PRM.walk_parent_map roadmap parent_map roadmap.length goal_idx).reverse

/-- `PRM::solve` (configured planner), with the BFS deadline as `fuel`. -/
def PRM.solve {S : Type} (sp : StateSpace S) (vc : S → Bool) (goal : S → Bool)
    (connection_radius : ℝ) (roadmap : List (PRM.Node S)) (start_state : S)
    (fuel : ℕ) : Except PlanningError (List S) :=
  if roadmap.isEmpty then .error .unsampledStateSpace
  else if vc start_state = false then .error .invalidStartState
  else
    let conns := PRM.start_connections sp vc connection_radius roadmap start_state
    let goals := PRM.goal_indices goal roadmap start_state
    if conns.isEmpty || goals.isEmpty then .error .noSolutionFound
    else
      -- the source seeds the deque from `start_connections` and then
      -- pushes the same indices again in the seeding loop
      match PRM.bfs roadmap goals fuel (conns ++ conns)
        (conns.foldl (fun m i => (i, none) :: m) [])
        (conns.foldl (fun v i => v.set i true)
          (List.replicate roadmap.length false)) with
      | .error e => .error e
      | .ok (none, _) => .error .noSolutionFound
      | .ok (some goal_node_idx, parent_map) =>
        .ok (PRM.reconstruct_path roadmap start_state parent_map goal_node_idx)

/-! ## Claim C5: PRM solve error order -/

/-- Claim C5: `PRM::solve` returns `UnsampledStateSpace` on an empty
roadmap; otherwise `InvalidStartState` when the checker rejects the start;
otherwise `NoSolutionFound` when no roadmap node connects to the start or
none satisfies the goal — in exactly this order, and never a path. -/
theorem C5_prm_solve_error_order :
    ∀ (S : Type) (sp : StateSpace S) (vc goal : S → Bool) (r : ℝ)
      (roadmap : List (PRM.Node S)) (start : S) (fuel : ℕ),
    (roadmap = [] →
      PRM.solve sp vc goal r roadmap start fuel = .error .unsampledStateSpace) ∧
    (roadmap ≠ [] → vc start = false →
      PRM.solve sp vc goal r roadmap start fuel = .error .invalidStartState) ∧
    (roadmap ≠ [] → vc start = true →
      (PRM.start_connections sp vc r roadmap start = [] ∨
        PRM.goal_indices goal roadmap start = []) →
      PRM.solve sp vc goal r roadmap start fuel = .error .noSolutionFound) := by
  intro S sp vc goal r roadmap start fuel
  refine ⟨?_, ?_, ?_⟩
  · intro h
    subst h
    rw [PRM.solve]
    simp
  · intro hne hvc
    rw [PRM.solve]
    rw [if_neg (by simp [List.isEmpty_iff, hne])]
    rw [if_pos hvc]
  · intro hne hvc hempty
    rw [PRM.solve]
    rw [if_neg (by simp [List.isEmpty_iff, hne])]
    rw [if_neg (by simp [hvc])]
    simp only
    rw [if_pos ?_]
    rcases hempty with h | h <;> simp [h]

/-- Witness for C5: all three error clauses fired on concrete inputs. -/
theorem C5_prm_solve_error_order_witness :
    PRM.solve (⟨fun _ _ => 0, fun _ _ _ => (), 1⟩ : StateSpace Unit)
      (fun _ => true) (fun _ => true) 1 [] () 0 = .error .unsampledStateSpace ∧
    PRM.solve (⟨fun _ _ => 0, fun _ _ _ => (), 1⟩ : StateSpace Unit)
      (fun _ => false) (fun _ => true) 1 [⟨(), []⟩] () 0 =
        .error .invalidStartState ∧
    PRM.solve (⟨fun _ _ => 0, fun _ _ _ => (), 1⟩ : StateSpace Unit)
      (fun _ => true) (fun _ => false) 1 [⟨(), []⟩] () 0 =
        .error .noSolutionFound := by
  refine ⟨(C5_prm_solve_error_order Unit _ _ _ 1 [] () 0).1 rfl,
    (C5_prm_solve_error_order Unit _ _ _ 1 [⟨(), []⟩] () 0).2.1 (by simp) rfl,
    (C5_prm_solve_error_order Unit _ _ _ 1 [⟨(), []⟩] () 0).2.2 (by simp) rfl ?_⟩
  right
  simp [PRM.goal_indices]

/-! ## The PRM BFS and reconstruction, for claim C2 -/

theorem PRM.bfs_fold_inv (current : ℕ) :
    ∀ (edges : List ℕ) (acc : List ℕ × List (ℕ × Option ℕ) × List Bool),
      (∀ q ∈ acc.1, (acc.2.1.lookup q).isSome) →
      ∀ q ∈ (edges.foldl
          (fun (acc : List ℕ × List (ℕ × Option ℕ) × List Bool) nb =>
            if acc.2.2.getD nb true then acc
            else (acc.1 ++ [nb], (nb, some current) :: acc.2.1, acc.2.2.set nb true))
          acc).1,
        (((edges.foldl
          (fun (acc : List ℕ × List (ℕ × Option ℕ) × List Bool) nb =>
            if acc.2.2.getD nb true then acc
            else (acc.1 ++ [nb], (nb, some current) :: acc.2.1, acc.2.2.set nb true))
          acc).2.1).lookup q).isSome := by
  intro edges
  induction edges with
  | nil => intro acc hinv q hq; exact hinv q hq
  | cons nb t ih =>
    intro acc hinv
    simp only [List.foldl_cons]
    by_cases hv : acc.2.2.getD nb true = true
    · rw [if_pos hv]
      exact ih acc hinv
    · rw [if_neg hv]
      refine ih _ ?_
      intro q hq
      simp only at hq ⊢
      rcases List.mem_append.mp hq with h | h
      · by_cases hqnb : q = nb
        · subst hqnb
          simp [List.lookup]
        · simp only [List.lookup_cons, beq_false_of_ne hqnb]
          exact hinv q h
      · rw [List.mem_singleton] at h
        subst h
        simp [List.lookup]

theorem PRM.bfs_ok_some {S : Type} (roadmap : List (PRM.Node S)) (goals : List ℕ) :
    ∀ (fuel : ℕ) (queue : List ℕ) (pmap : List (ℕ × Option ℕ)) (visited : List Bool),
      (∀ q ∈ queue, (pmap.lookup q).isSome) →
      ∀ gidx res_pm,
        PRM.bfs roadmap goals fuel queue pmap visited = .ok (some gidx, res_pm) →
        gidx ∈ goals ∧ (res_pm.lookup gidx).isSome := by
  intro fuel
  induction fuel with
  | zero =>
    intro queue pmap visited hinv gidx res_pm h
    match queue with
    | [] => simp [PRM.bfs] at h
    | q :: t => simp [PRM.bfs] at h
  | succ fuel ih =>
    intro queue pmap visited hinv gidx res_pm h
    match queue with
    | [] => simp [PRM.bfs] at h
    | current :: t =>
      simp only [PRM.bfs] at h
      by_cases hg : current ∈ goals
      · rw [if_pos hg] at h
        simp only [Except.ok.injEq, Prod.mk.injEq, Option.some.injEq] at h
        obtain ⟨h1, h2⟩ := h
        subst h1
        subst h2
        exact ⟨hg, hinv current (List.mem_cons_self _ _)⟩
      · rw [if_neg hg] at h
        rcases hcur : roadmap.get? current with _ | nd
        · rw [hcur] at h
          exact ih t pmap visited
            (fun q hq => hinv q (List.mem_cons_of_mem _ hq)) gidx res_pm h
        · rw [hcur] at h
          simp only at h
          refine ih _ _ _ ?_ gidx res_pm h
          exact PRM.bfs_fold_inv current nd.edges (t, pmap, visited)
            (fun q hq => hinv q (List.mem_cons_of_mem _ hq))

theorem PRM.walk_head {S : Type} (roadmap : List (PRM.Node S))
    (pmap : List (ℕ × Option ℕ)) (gidx : ℕ) (nd : PRM.Node S) (po : Option ℕ)
    (hnd : roadmap.get? gidx = some nd) (hpo : pmap.lookup gidx = some po)
    (fuel : ℕ) :
    PRM.walk_parent_map roadmap pmap (fuel + 1) gidx ≠ [] ∧
    (PRM.walk_parent_map roadmap pmap (fuel + 1) gidx).head? = some nd.state := by
  simp only [PRM.walk_parent_map, hpo, hnd]
  cases po <;> simp

theorem PRM.solve_ok {S : Type} (sp : StateSpace S) (vc goal : S → Bool) (r : ℝ)
    (roadmap : List (PRM.Node S)) (start : S) (fuel : ℕ) (path : List S)
    (h : PRM.solve sp vc goal r roadmap start fuel = .ok path) :
    path ≠ [] ∧ path.head? = some start ∧
    ∃ g, path.getLast? = some g ∧ goal g = true := by
  rw [PRM.solve] at h
  by_cases h1 : roadmap.isEmpty
  · rw [if_pos h1] at h
    cases h
  rw [if_neg h1] at h
  by_cases h2 : vc start = false
  · rw [if_pos h2] at h
    cases h
  rw [if_neg h2] at h
  simp only at h
  by_cases h3 : (PRM.start_connections sp vc r roadmap start).isEmpty ||
      (PRM.goal_indices goal roadmap start).isEmpty
  · rw [if_pos h3] at h
    cases h
  rw [if_neg h3] at h
  set conns := PRM.start_connections sp vc r roadmap start with hconns
  set goals := PRM.goal_indices goal roadmap start with hgoals
  rcases hb : PRM.bfs roadmap goals fuel (conns ++ conns)
      (conns.foldl (fun m i => (i, none) :: m) [])
      (conns.foldl (fun v i => v.set i true)
        (List.replicate roadmap.length false)) with e | ⟨og, pm⟩
  · rw [hb] at h
    cases h
  · rw [hb] at h
    match og with
    | none => cases h
    | some gidx =>
      simp only [Except.ok.injEq] at h
      have hinv0 : ∀ q ∈ conns ++ conns,
          (((conns.foldl (fun m i => (i, none) :: m)
            ([] : List (ℕ × Option ℕ))).lookup q)).isSome := by
        have key : ∀ (l : List ℕ) (m : List (ℕ × Option ℕ)) (q : ℕ),
            (q ∈ l ∨ (m.lookup q).isSome) →
            ((l.foldl (fun m i => (i, none) :: m) m).lookup q).isSome := by
          intro l
          induction l with
          | nil =>
            intro m q hq
            rcases hq with h | h
            · cases h
            · exact h
          | cons a t ih =>
            intro m q hq
            rw [List.foldl_cons]
            refine ih _ q ?_
            rcases hq with h | h
            · rcases List.mem_cons.mp h with h' | h'
              · subst h'
                right
                simp [List.lookup]
              · exact Or.inl h'
            · right
              by_cases hqa : q = a
              · subst hqa
                simp [List.lookup]
              · simp only [List.lookup_cons, beq_false_of_ne hqa]
                exact h
        intro q hq
        refine key conns [] q (Or.inl ?_)
        rcases List.mem_append.mp hq with h | h <;> exact h
      obtain ⟨hgmem, hglookup⟩ := PRM.bfs_ok_some roadmap goals fuel _ _ _ hinv0
        gidx pm hb
      have hglt : gidx < roadmap.length := by
        rw [hgoals, PRM.goal_indices, List.mem_filter, List.mem_range] at hgmem
        exact hgmem.1
      obtain ⟨nd, hnd⟩ : ∃ nd, roadmap.get? gidx = some nd := by
        rw [List.get?_eq_get hglt]
        exact ⟨_, rfl⟩
      have hgsat : goal nd.state = true := by
        rw [hgoals, PRM.goal_indices, List.mem_filter] at hgmem
        have := hgmem.2
        rw [hnd] at this
        simpa using this
      obtain ⟨po, hpo⟩ : ∃ po, pm.lookup gidx = some po := by
        rcases hpm : pm.lookup gidx with _ | po
        · rw [hpm] at hglookup
          cases hglookup
        · exact ⟨po, rfl⟩
      obtain ⟨m, hm⟩ : ∃ m, roadmap.length = m + 1 := ⟨roadmap.length - 1, by omega⟩
      have hwalk := PRM.walk_head roadmap pm gidx nd po hnd hpo m
      rw [← hm] at hwalk
      subst h
      rw [PRM.reconstruct_path]
      refine ⟨by simp, by simp, ⟨nd.state, ?_, hgsat⟩⟩
      have hrev_ne : (PRM.walk_parent_map roadmap pm roadmap.length gidx).reverse ≠
          [] := by
        simpa using hwalk.1
      rw [getLast?_cons_of_ne_nil _ hrev_ne, List.getLast?_reverse]
      exact hwalk.2

/-! ## Claim C9: PRM construction is idempotent and keeps the roadmap
symmetric -/

theorem PRM.update_step_length {S : Type} (L : ℕ) (tr : List (PRM.Node S)) (i : ℕ) :
    (PRM.update_step L tr i).length = tr.length := by
  rw [PRM.update_step]
  rcases h : tr.get? i with _ | nd <;> simp only
  exact List.length_set _ _ _

theorem PRM.update_step_get?_ne {S : Type} (L : ℕ) (tr : List (PRM.Node S))
    (i j : ℕ) (hj : j ≠ i) : (PRM.update_step L tr i).get? j = tr.get? j := by
  rw [PRM.update_step]
  rcases h : tr.get? i with _ | nd <;> simp only
  exact List.get?_set_ne _ _ (Ne.symm hj)

theorem PRM.update_step_get?_self {S : Type} (L : ℕ) (tr : List (PRM.Node S))
    (i : ℕ) (nd : PRM.Node S) (hnd : tr.get? i = some nd) :
    (PRM.update_step L tr i).get? i = some ⟨nd.state, nd.edges ++ [L]⟩ := by
  rw [PRM.update_step, hnd]
  simp only
  exact List.get?_set_eq_of_lt _ (lt_length_of_get?_eq_some hnd)

theorem PRM.update_fold_spec {S : Type} (L : ℕ) :
    ∀ (ns : List ℕ), ns.Nodup →
    ∀ (tr res : List (PRM.Node S)), res = ns.foldl (PRM.update_step L) tr →
      res.length = tr.length ∧
      (∀ j, j ∉ ns → res.get? j = tr.get? j) ∧
      (∀ n ∈ ns, ∀ nd, tr.get? n = some nd →
        res.get? n = some ⟨nd.state, nd.edges ++ [L]⟩) := by
  intro ns
  induction ns with
  | nil =>
    intro _ tr res hres
    subst hres
    exact ⟨rfl, fun _ _ => rfl, fun n hn => absurd hn (List.not_mem_nil n)⟩
  | cons n t ih =>
    intro hnodup tr res hres
    rw [List.foldl_cons] at hres
    have hnt : n ∉ t := (List.nodup_cons.mp hnodup).1
    obtain ⟨hlen, hout, hmem⟩ := ih (List.nodup_cons.mp hnodup).2 _ res hres
    refine ⟨by rw [hlen, PRM.update_step_length], ?_, ?_⟩
    · intro j hj
      have hjn : j ≠ n := fun hc => hj (hc ▸ List.mem_cons_self _ _)
      have hjt : j ∉ t := fun hc => hj (List.mem_cons_of_mem _ hc)
      rw [hout j hjt]
      exact PRM.update_step_get?_ne L tr n j hjn
    · intro m hm nd hnd
      rcases List.mem_cons.mp hm with h | h
      · subst h
        rw [hout m hnt]
        exact PRM.update_step_get?_self L tr m nd hnd
      · have hmn : m ≠ n := fun hc => hnt (hc ▸ h)
        refine hmem m h nd ?_
        rw [PRM.update_step_get?_ne L tr n m hmn]
        exact hnd

/-- The roadmap is a well-formed undirected graph: adjacency indices are
in range and membership is symmetric. -/
def PRM.SymWF {S : Type} (roadmap : List (PRM.Node S)) : Prop :=
  (∀ i nd, roadmap.get? i = some nd → ∀ e ∈ nd.edges, e < roadmap.length) ∧
  (∀ i j ndi ndj, roadmap.get? i = some ndi → roadmap.get? j = some ndj →
    (i ∈ ndj.edges ↔ j ∈ ndi.edges))

theorem PRM.construct_insert_sym {S : Type} (sp : StateSpace S) (vc : S → Bool)
    (r : ℝ) (rm : List (PRM.Node S)) (q : S) (h : PRM.SymWF rm) :
    PRM.SymWF (PRM.construct_insert sp vc r rm q) := by
  rw [PRM.construct_insert]
  by_cases hv : vc q = true
  swap
  · rw [if_neg hv]
    exact h
  rw [if_pos hv]
  simp only
  set ns := (List.range rm.length).filter (fun i =>
    decide (sp.distance q (((rm.get? i).getD ⟨q, []⟩).state) < r) &&
    PRM.check_motion sp vc q (((rm.get? i).getD ⟨q, []⟩).state)) with hns
  have hns_nodup : ns.Nodup := List.Nodup.filter _ (List.nodup_range _)
  have hns_lt : ∀ n ∈ ns, n < rm.length := by
    intro n hn
    rw [hns, List.mem_filter, List.mem_range] at hn
    exact hn.1
  set pushed := rm ++ [(⟨q, ns⟩ : PRM.Node S)] with hpushed
  obtain ⟨hlen, hout, hmem⟩ := PRM.update_fold_spec rm.length ns hns_nodup pushed
    (ns.foldl (PRM.update_step rm.length) pushed) rfl
  set res := ns.foldl (PRM.update_step rm.length) pushed with hres
  have hlen' : res.length = rm.length + 1 := by
    rw [hlen, hpushed]
    simp
  have hLnotns : rm.length ∉ ns := fun hc => absurd (hns_lt _ hc) (lt_irrefl _)
  have hgetL : res.get? rm.length = some ⟨q, ns⟩ := by
    rw [hout _ hLnotns, hpushed]
    exact List.get?_concat_length _ _
  have hsplit : ∀ j ndj, res.get? j = some ndj →
      (j = rm.length ∧ ndj = ⟨q, ns⟩) ∨
      (j < rm.length ∧ j ∈ ns ∧ ∃ nd, rm.get? j = some nd ∧
        ndj = ⟨nd.state, nd.edges ++ [rm.length]⟩) ∨
      (j < rm.length ∧ j ∉ ns ∧ rm.get? j = some ndj) := by
    intro j ndj hndj
    have hjlt : j < rm.length + 1 := by
      have := lt_length_of_get?_eq_some hndj
      rw [hlen'] at this
      exact this
    by_cases hjL : j = rm.length
    · subst hjL
      rw [hgetL] at hndj
      cases hndj
      exact Or.inl ⟨rfl, rfl⟩
    · have hjlt' : j < rm.length := by omega
      obtain ⟨nd, hnd⟩ : ∃ nd, rm.get? j = some nd := by
        rw [List.get?_eq_get hjlt']
        exact ⟨_, rfl⟩
      have hpj : pushed.get? j = some nd := by
        rw [hpushed, List.get?_append hjlt']
        exact hnd
      by_cases hjns : j ∈ ns
      · rw [hmem j hjns nd hpj] at hndj
        cases hndj
        exact Or.inr (Or.inl ⟨hjlt', hjns, nd, hnd, rfl⟩)
      · rw [hout j hjns, hpj] at hndj
        cases hndj
        exact Or.inr (Or.inr ⟨hjlt', hjns, hnd⟩)
  constructor
  · intro i nd hnd e he
    rw [hlen']
    rcases hsplit i nd hnd with ⟨_, hnd'⟩ | ⟨hi, _, nd0, hnd0, hnd'⟩ | ⟨hi, _, hnd'⟩
    · subst hnd'
      have := hns_lt e he
      omega
    · subst hnd'
      simp only [List.mem_append, List.mem_singleton] at he
      rcases he with he | he
      · have := h.1 i nd0 hnd0 e he
        omega
      · omega
    · have := h.1 i nd hnd' e he
      omega
  · intro i j ndi ndj hndi hndj
    have edge_iff : ∀ (a b : ℕ) (nda : PRM.Node S), res.get? a = some nda →
        (b ∈ nda.edges ↔
          ((a = rm.length ∧ b ∈ ns) ∨
           (a < rm.length ∧ ∃ nd0, rm.get? a = some nd0 ∧
             (b ∈ nd0.edges ∨ (a ∈ ns ∧ b = rm.length))))) := by
      intro a b nda hnda
      rcases hsplit a nda hnda with ⟨ha, hnd'⟩ | ⟨ha, hans, nd0, hnd0, hnd'⟩ |
        ⟨ha, hans, hnd'⟩
      · subst hnd'
        subst ha
        simp only [List.mem_append, List.mem_singleton]
        constructor
        · intro hb
          exact Or.inl ⟨trivial, hb⟩
        · intro hb
          rcases hb with ⟨_, hb⟩ | ⟨hlt, _⟩
          · exact hb
          · omega
      · subst hnd'
        simp only [List.mem_append, List.mem_singleton]
        constructor
        · intro hb
          rcases hb with hb | hb
          · exact Or.inr ⟨ha, nd0, hnd0, Or.inl hb⟩
          · exact Or.inr ⟨ha, nd0, hnd0, Or.inr ⟨hans, hb⟩⟩
        · intro hb
          rcases hb with ⟨haL, _⟩ | ⟨_, nd1, hnd1, hb⟩
          · omega
          · rw [hnd0] at hnd1
            cases hnd1
            rcases hb with hb | ⟨_, hb⟩
            · exact Or.inl hb
            · exact Or.inr hb
      · constructor
        · intro hb
          exact Or.inr ⟨ha, nda, hnd', Or.inl hb⟩
        · intro hb
          rcases hb with ⟨haL, _⟩ | ⟨_, nd1, hnd1, hb⟩
          · omega
          · rw [hnd'] at hnd1
            cases hnd1
            rcases hb with hb | ⟨hans', _⟩
            · exact hb
            · exact absurd hans' hans
    rw [edge_iff j i ndj hndj, edge_iff i j ndi hndi]
    constructor
    · intro hb
      rcases hb with ⟨hjL, hins⟩ | ⟨hjlt, nd0, hnd0, hb⟩
      · subst hjL
        right
        have hilt := hns_lt i hins
        obtain ⟨nd0, hnd0⟩ : ∃ nd0, rm.get? i = some nd0 := by
          rw [List.get?_eq_get hilt]
          exact ⟨_, rfl⟩
        exact ⟨hilt, nd0, hnd0, Or.inr ⟨hins, rfl⟩⟩
      · rcases hb with hb | ⟨hjns, hbL⟩
        · -- i ∈ old edges of j: symmetry of the old roadmap
          by_cases hiL : i = rm.length
          · subst hiL
            have := h.1 j nd0 hnd0 _ hb
            omega
          · have hilt : i < rm.length := by
              have := h.1 j nd0 hnd0 _ hb
              omega
            obtain ⟨nd1, hnd1⟩ : ∃ nd1, rm.get? i = some nd1 := by
              rw [List.get?_eq_get hilt]
              exact ⟨_, rfl⟩
            right
            exact ⟨hilt, nd1, hnd1, Or.inl ((h.2 j i nd0 nd1 hnd0 hnd1).mpr hb)⟩
        · subst hbL
          exact Or.inl ⟨rfl, hjns⟩
    · intro hb
      rcases hb with ⟨hiL, hjns⟩ | ⟨hilt, nd0, hnd0, hb⟩
      · subst hiL
        right
        have hjlt := hns_lt j hjns
        obtain ⟨nd1, hnd1⟩ : ∃ nd1, rm.get? j = some nd1 := by
          rw [List.get?_eq_get hjlt]
          exact ⟨_, rfl⟩
        exact ⟨hjlt, nd1, hnd1, Or.inr ⟨hjns, rfl⟩⟩
      · rcases hb with hb | ⟨hins, hbL⟩
        · by_cases hjL : j = rm.length
          · subst hjL
            have := h.1 i nd0 hnd0 _ hb
            omega
          · have hjlt : j < rm.length := by
              have := h.1 i nd0 hnd0 _ hb
              omega
            obtain ⟨nd1, hnd1⟩ : ∃ nd1, rm.get? j = some nd1 := by
              rw [List.get?_eq_get hjlt]
              exact ⟨_, rfl⟩
            right
            exact ⟨hjlt, nd1, hnd1, Or.inl ((h.2 i j nd0 nd1 hnd0 hnd1).mpr hb)⟩
        · subst hbL
          exact Or.inl ⟨rfl, hins⟩

theorem PRM.construct_loop_sym {S : Type} (sp : StateSpace S) (vc : S → Bool)
    (r : ℝ) :
    ∀ (samples : List (Except StateSamplingError S)) (rm res : List (PRM.Node S)),
      PRM.SymWF rm → PRM.construct_loop sp vc r samples rm = some res →
      PRM.SymWF res := by
  intro samples
  induction samples with
  | nil =>
    intro rm res hwf h
    rw [PRM.construct_loop] at h
    cases h
    exact hwf
  | cons d t ih =>
    intro rm res hwf h
    match d with
    | .error e => simp [PRM.construct_loop] at h
    | .ok q =>
      rw [PRM.construct_loop] at h
      exact ih _ res (PRM.construct_insert_sym sp vc r rm q hwf) h

/-- Claim C9: `construct_roadmap` is a no-op returning `Ok` when the
roadmap is non-empty; one insertion preserves the symmetric well-formed
adjacency structure; and any roadmap the construction loop builds from
scratch is symmetric. -/
theorem C9_prm_construct_idempotent_and_symmetric :
    (∀ (S : Type) (sp : StateSpace S) (vc : S → Bool) (r : ℝ)
        (roadmap : List (PRM.Node S)) (samples : List (Except StateSamplingError S)),
      roadmap ≠ [] →
      PRM.construct_roadmap sp vc r roadmap samples = some roadmap) ∧
    (∀ (S : Type) (sp : StateSpace S) (vc : S → Bool) (r : ℝ)
        (roadmap : List (PRM.Node S)) (q : S),
      PRM.SymWF roadmap → PRM.SymWF (PRM.construct_insert sp vc r roadmap q)) ∧
    (∀ (S : Type) (sp : StateSpace S) (vc : S → Bool) (r : ℝ)
        (samples : List (Except StateSamplingError S)) (res : List (PRM.Node S)),
      PRM.construct_roadmap sp vc r [] samples = some res → PRM.SymWF res) := by
  refine ⟨?_, ?_, ?_⟩
  · intro S sp vc r roadmap samples hne
    rw [PRM.construct_roadmap, if_neg (by simp [List.isEmpty_iff, hne])]
  · intro S sp vc r roadmap q hwf
    exact PRM.construct_insert_sym sp vc r roadmap q hwf
  · intro S sp vc r samples res h
    rw [PRM.construct_roadmap] at h
    rw [if_pos (by simp)] at h
    refine PRM.construct_loop_sym sp vc r samples [] res ?_ h
    constructor
    · intro i nd hnd
      simp at hnd
    · intro i j ndi ndj hndi _
      simp at hndi

/-- Witness for C9: the no-op clause on a concrete non-empty roadmap. -/
theorem C9_prm_construct_idempotent_and_symmetric_witness :
    PRM.construct_roadmap (⟨fun _ _ => 0, fun _ _ _ => (), 1⟩ : StateSpace Unit)
      (fun _ => true) 1 [⟨(), []⟩] [] = some [⟨(), []⟩] :=
  C9_prm_construct_idempotent_and_symmetric.1 Unit
    ⟨fun _ _ => 0, fun _ _ _ => (), 1⟩ (fun _ => true) 1 [⟨(), []⟩] []
    (by simp)

/-! ## Claim C3: what a failed sample does to the solve loops -/

/-- Spec-modelled variant of `RRT.solve_loop` (translated from the spec's
words, NOT from the source, for comparison): a failed sample discards the
current iteration and the loop continues with the next draw. -/
def RRT.solve_loop_skip {S : Type} (sp : StateSpace S) (vc : S → Bool)
    (goal : S → Bool) (max_distance : ℝ) :
    List (Draw S) → List (RRT.Node S) → SolveResult S
  | [], _ => .err .timeout
  | (_, .error _) :: draws, tree =>
    RRT.solve_loop_skip sp vc goal max_distance draws tree
  | (_, .ok q_rand) :: draws, tree =>
    match tree with
    | [] => .err .plannerUninitialised
    | t0 :: rest =>
      let scan := nearest_scan (fun nd => sp.distance nd.state q_rand) (t0 :: rest)
      let q_near := ((t0 :: rest).getD scan.1 t0).state
      let q_new := if scan.2 > max_distance
        then sp.interpolate q_near q_rand (max_distance / scan.2)
        else q_rand
      if RRT.check_motion sp vc q_near q_new then
        let new_tree := (t0 :: rest) ++ [⟨q_new, some scan.1⟩]
        if goal q_new then
          .ok ((walk_states RRT.Node.state RRT.Node.parent_index new_tree
            new_tree.length (new_tree.length - 1)).reverse)
        else RRT.solve_loop_skip sp vc goal max_distance draws new_tree
      else RRT.solve_loop_skip sp vc goal max_distance draws (t0 :: rest)

/-- Counterexample to claim C3: on a run whose single uniform sample
fails, `RRT::solve` panics (the source `unwrap()`s the sampling `Result`,
`planners/rrt.rs` lines 177-184), it does not discard the iteration; the
spec-modelled skip-and-continue loop would instead keep running and time
out. -/
theorem C3_sampling_error_counterexample :
    RRT.solve (⟨fun _ _ => 0, fun _ _ _ => (), 1⟩ : StateSpace Unit)
        (fun _ => true) (fun _ => false) 1 () [(false, .error .zeroVolume)] =
      .panicked .zeroVolume ∧
    RRT.solve_loop_skip (⟨fun _ _ => 0, fun _ _ _ => (), 1⟩ : StateSpace Unit)
        (fun _ => true) (fun _ => false) 1 [(false, .error .zeroVolume)]
        [⟨(), none⟩] = .err .timeout :=
  ⟨rfl, rfl⟩

/-- Claim C3, amended: a failed `sample_uniform`/`sample_goal` inside the
main loop of RRT, RRT* or RRT-Connect makes `solve` panic with that error
(the source `unwrap()`s the `Result`), and a failed sample inside PRM's
construction loop likewise panics; the error is never skipped.  The
claim's exception clause is also wrong: `RRTConnect::setup`
(`rrt_connect.rs` line 219) `unwrap()`s its single initial goal sample
too, and since `setup` returns unit it cannot report anything to the
caller — a failed draw panics there as well (the `none` outcome of the
`RRTConnect.setup` model below). -/
theorem C3_sampling_error_amended :
    (∀ (S : Type) (sp : StateSpace S) (vc : S → Bool) (goal : S → Bool)
        (max_distance : ℝ) (b : Bool) (e : StateSamplingError)
        (rest : List (Draw S)) (tree : List (RRT.Node S)),
      RRT.solve_loop sp vc goal max_distance ((b, .error e) :: rest) tree =
        .panicked e) ∧
    (∀ (S : Type) (sp : StateSpace S) (vc : S → Bool) (goal : S → Bool)
        (max_distance search_radius : ℝ) (b : Bool) (e : StateSamplingError)
        (rest : List (Draw S)) (tree : List (RRTStar.Node S)),
      RRTStar.solve_loop sp vc goal max_distance search_radius
        ((b, .error e) :: rest) tree = .panicked e) ∧
    (∀ (S : Type) (sp : StateSpace S) (vc : S → Bool) (goal : S → Bool)
        (max_distance : ℝ) (b : Bool) (e : StateSamplingError)
        (rest : List (Draw S)) (st gt : List (RRTConnect.Node S)),
      RRTConnect.solve_loop sp vc goal max_distance ((b, .error e) :: rest)
        st gt = .panicked e) ∧
    (∀ (S : Type) (sp : StateSpace S) (vc : S → Bool) (connection_radius : ℝ)
        (e : StateSamplingError) (rest : List (Except StateSamplingError S))
        (roadmap : List (PRM.Node S)),
      PRM.construct_loop sp vc connection_radius (.error e :: rest) roadmap =
        none) ∧
    (∀ (S : Type) (start : S) (e : StateSamplingError),
      RRTConnect.setup start (.error e) = none) :=
  ⟨fun _ _ _ _ _ _ _ _ _ => rfl,
   fun _ _ _ _ _ _ _ _ _ _ => rfl,
   fun _ _ _ _ _ _ _ _ _ _ => rfl,
   fun _ _ _ _ _ _ _ => rfl,
   fun _ _ _ => rfl⟩

/-! ## Claim C2: endpoints of every returned path -/

theorem TreeInv_singleton {α S : Type} (st : α → S) (pr : α → Option ℕ)
    (nd : α) (h : pr nd = none) : TreeInv st pr (st nd) [nd] := by
  refine ⟨⟨nd, rfl, rfl, h⟩, ?_⟩
  intro i x hx
  match i with
  | 0 =>
    simp only [List.get?_cons_zero, Option.some.injEq] at hx
    subst hx
    exact ⟨fun _ => rfl, fun p hp => by rw [h] at hp; cases hp⟩
  | i + 1 =>
    simp at hx

theorem StarInv_singleton {S : Type} (sp : StateSpace S) (start : S) :
    StarInv sp start [⟨start, none, 0⟩] := by
  refine ⟨rfl, ?_, ?_, ?_, ?_⟩
  · intro i nd hnd _
    have := lt_length_of_get?_eq_some hnd
    simp only [List.length_cons, List.length_nil] at this
    omega
  · intro i nd p hnd hp
    match i with
    | 0 =>
      simp only [List.get?_cons_zero, Option.some.injEq] at hnd
      subst hnd
      cases hp
    | i + 1 => simp at hnd
  · intro i nd hnd
    match i with
    | 0 =>
      simp only [List.get?_cons_zero, Option.some.injEq] at hnd
      subst hnd
      exact le_refl 0
    | i + 1 => simp at hnd
  · intro i hi
    simp only [List.length_cons, List.length_nil] at hi
    have hi0 : i = 0 := by omega
    subst hi0
    refine ⟨[0], PChain.nil 0 rfl, by simp, by simp⟩

/-- Claim C2: a path returned by a successful `solve` of RRT, RRT-Connect,
RRT* or PRM is non-empty, starts at the (first) start configuration the
planner was set up with, and ends at a configuration satisfying the goal
predicate.  RRT-Connect assumes its goal-tree root satisfies the goal
(`setup` samples it from the goal region); RRT* assumes the space's
distance is non-negative. -/
theorem C2_solve_path_endpoints {S : Type} (sp : StateSpace S) (vc : S → Bool)
    (goal : S → Bool) (max_distance search_radius connection_radius : ℝ)
    (start groot : S) (draws : List (Draw S)) (roadmap : List (PRM.Node S))
    (fuel : ℕ) (path : List S) :
    (RRT.solve sp vc goal max_distance start draws = .ok path →
      path ≠ [] ∧ path.head? = some start ∧
      ∃ g, path.getLast? = some g ∧ goal g = true) ∧
    (goal groot = true →
      RRTConnect.solve sp vc goal max_distance start groot draws = .ok path →
      path ≠ [] ∧ path.head? = some start ∧
      ∃ g, path.getLast? = some g ∧ goal g = true) ∧
    ((∀ a b : S, 0 ≤ sp.distance a b) →
      RRTStar.solve sp vc goal max_distance search_radius start draws = .ok path →
      path ≠ [] ∧ path.head? = some start ∧
      ∃ g, path.getLast? = some g ∧ goal g = true) ∧
    (PRM.solve sp vc goal connection_radius roadmap start fuel = .ok path →
      path ≠ [] ∧ path.head? = some start ∧
      ∃ g, path.getLast? = some g ∧ goal g = true) := by
  refine ⟨?_, ?_, ?_, ?_⟩
  · intro h
    rw [RRT.solve] at h
    exact RRT.solve_loop_ok sp vc goal max_distance draws _ start
      (TreeInv_singleton RRT.Node.state RRT.Node.parent_index ⟨start, none⟩ rfl)
      path h
  · intro hg h
    rw [RRTConnect.solve] at h
    exact RRTConnect.connect_solve_loop_ok sp vc goal max_distance draws _ _ start groot
      (TreeInv_singleton RRTConnect.Node.state RRTConnect.Node.parent_index
        ⟨start, none⟩ rfl)
      (TreeInv_singleton RRTConnect.Node.state RRTConnect.Node.parent_index
        ⟨groot, none⟩ rfl)
      hg path h
  · intro hd h
    rw [RRTStar.solve] at h
    exact RRTStar.star_solve_loop_ok sp vc goal max_distance search_radius hd draws _
      start (StarInv_singleton sp start) path h
  · intro h
    exact PRM.solve_ok sp vc goal connection_radius roadmap start fuel path h

end Oxmpl

end
